import Mathlib

/-!
Verification of the nostr-secrets relay-backed secret synchronization engine.

The TypeScript sources are shallowly embedded: strings that carry binary or
wire data are modelled as `List Char` / byte lists (`Fin 256`), JavaScript
truthiness of optional string fields as a `truthy` predicate on
`Option String`, and network effects as explicit oracles (what each relay
would answer) threaded through otherwise pure functions.  Definitions come
first, theorems afterwards.
-/

namespace Nostr

/-! ## Bytes and base64 (the `btoa` / `atob` pair used throughout the source) -/

/-- A byte, as produced by `Uint8Array` cells in the source. -/
abbrev Byte := Fin 256

/-- Bytewise xor; sound because xor of two values below `2 ^ 8` stays below it. -/
def byteXor (a b : Byte) : Byte :=
  ⟨a.val ^^^ b.val, by
    have h : (2 : ℕ) ^ 8 = 256 := by norm_num
    have ha8 : a.val < 2 ^ 8 := lt_of_lt_of_le a.isLt (le_of_eq h.symm)
    have hb8 : b.val < 2 ^ 8 := lt_of_lt_of_le b.isLt (le_of_eq h.symm)
    have := Nat.xor_lt_two_pow ha8 hb8
    omega⟩

/-- The standard base64 alphabet used by `btoa`. -/
def b64Alphabet : List Char :=
  "ABCDEFGHIJKLMNOPQRSTUVWXYZabcdefghijklmnopqrstuvwxyz0123456789+/".toList

/-- Character for a six-bit group. -/
def charOfSextet (s : Fin 64) : Char := b64Alphabet.getD s.val 'A'

/-- Inverse lookup in the alphabet (`atob` rejects characters outside it). -/
def sextetOfChar (c : Char) : Option (Fin 64) :=
  let i := b64Alphabet.indexOf c
  if h : i < 64 then some ⟨i, h⟩ else none

/-- `btoa`: encode a byte list, three bytes per four output characters,
with trailing `=` padding exactly as the platform encoder emits it. -/
def b64EncodeL : List Byte → List Char
  | [] => []
  | [a] =>
      charOfSextet ⟨a.val / 4, by have := a.isLt; omega⟩ ::
      charOfSextet ⟨a.val % 4 * 16, by have := a.isLt; omega⟩ :: '=' :: '=' :: []
  | [a, b] =>
      charOfSextet ⟨a.val / 4, by have := a.isLt; omega⟩ ::
      charOfSextet ⟨a.val % 4 * 16 + b.val / 16, by have := a.isLt; have := b.isLt; omega⟩ ::
      charOfSextet ⟨b.val % 16 * 4, by have := b.isLt; omega⟩ :: '=' :: []
  | a :: b :: c :: rest =>
      charOfSextet ⟨a.val / 4, by have := a.isLt; omega⟩ ::
      charOfSextet ⟨a.val % 4 * 16 + b.val / 16, by have := a.isLt; have := b.isLt; omega⟩ ::
      charOfSextet ⟨b.val % 16 * 4 + c.val / 64, by have := b.isLt; have := c.isLt; omega⟩ ::
      charOfSextet ⟨c.val % 64, by have := c.isLt; omega⟩ ::
      b64EncodeL rest

/-- `atob`: decode four characters at a time; `=` may appear only as final
padding; a character outside the alphabet fails the whole decode. -/
def b64DecodeL : List Char → Option (List Byte)
  | [] => some []
  | c1 :: c2 :: c3 :: c4 :: rest =>
      match sextetOfChar c1, sextetOfChar c2, sextetOfChar c3, sextetOfChar c4 with
      | some s1, some s2, some s3, some s4 =>
          (b64DecodeL rest).map (fun tail =>
            ⟨s1.val * 4 + s2.val / 16, by have := s1.isLt; have := s2.isLt; omega⟩ ::
            ⟨s2.val % 16 * 16 + s3.val / 4, by have := s2.isLt; have := s3.isLt; omega⟩ ::
            ⟨s3.val % 4 * 64 + s4.val, by have := s3.isLt; have := s4.isLt; omega⟩ :: tail)
      | some s1, some s2, some s3, none =>
          if c4 = '=' ∧ rest = [] then
            some [⟨s1.val * 4 + s2.val / 16, by have := s1.isLt; have := s2.isLt; omega⟩,
                  ⟨s2.val % 16 * 16 + s3.val / 4, by have := s2.isLt; have := s3.isLt; omega⟩]
          else none
      | some s1, some s2, none, none =>
          if c3 = '=' ∧ c4 = '=' ∧ rest = [] then
            some [⟨s1.val * 4 + s2.val / 16, by have := s1.isLt; have := s2.isLt; omega⟩]
          else none
      | _, _, _, _ => none
  | _ => none

/-! ## Encryption-version detection (src `nip44.ts`, `detectEncryptionVersion`) -/

/-- JavaScript `ciphertext.includes('?iv=')`: does the four-character legacy
IV separator occur anywhere in the string? -/
def hasIvSep : List Char → Bool
  | [] => false
  | c :: rest => (decide (c = '?') && decide (rest.take 3 = ['i', 'v', '='])) || hasIvSep rest

/-- `detectEncryptionVersion` from `nip44.ts`: the `?iv=` separator means
NIP-04 (v1); otherwise a base64 payload starting with `A` (the encoding of
the v2 version byte `0x02`) means NIP-44 (v2); everything else defaults to
v1 for backwards compatibility. -/
def detectEncryptionVersion (s : List Char) : Nat :=
  if hasIvSep s then 1
  else if s.head? = some 'A' then 2
  else 1

/-! ## Scheme v1 (NIP-04) — wire wrapper from `nostrRelay.ts`

`encryptNIP04` / `decryptNIP04` in the source delegate the raw AES-256-CBC
block-cipher work to WebCrypto and only implement the wire format
(`base64(cipher) + '?iv=' + base64(iv)`).  The cipher core is therefore kept
abstract: any keyed, IV-keyed cipher whose decrypt inverts its encrypt and
whose output is non-empty (AES-CBC always emits at least one padded block). -/

/-- Modelled from the spec: the symmetric block-cipher core of scheme v1
("symmetric block-cipher encryption keyed by an ECDH shared secret"), which
lives in WebCrypto, not under `src/`.  `enc key iv data` and its partial
inverse `dec`. -/
structure BlockCipher where
  enc : List Byte → List Byte → List Byte → List Byte
  dec : List Byte → List Byte → List Byte → Option (List Byte)
  dec_enc : ∀ k iv d, dec k iv (enc k iv d) = some d
  enc_ne : ∀ k iv d, enc k iv d ≠ []

/-- JavaScript `String.prototype.split('?iv=')`. -/
def consHead (c : Char) : List (List Char) → List (List Char)
  | [] => [[c]]
  | seg :: segs => (c :: seg) :: segs

/-- Fuelled worker for `splitOnIv`; the fuel only needs to dominate the
string length, so the wrapper below always supplies enough. -/
def splitOnIvF : Nat → List Char → List (List Char)
  | _, [] => [[]]
  | 0, s => [s]
  | f + 1, c :: rest =>
      if c = '?' ∧ rest.take 3 = ['i', 'v', '='] then
        [] :: splitOnIvF f (rest.drop 3)
      else consHead c (splitOnIvF f rest)

/-- Split a string at every occurrence of the `?iv=` separator. -/
def splitOnIv (s : List Char) : List (List Char) := splitOnIvF s.length s

/-- `encryptNIP04` (src `nostrRelay.ts`): AES-CBC with a random IV, output
`base64(ciphertext) + '?iv=' + base64(iv)`. -/
def encryptNIP04 (C : BlockCipher) (sharedKey iv content : List Byte) : List Char :=
  b64EncodeL (C.enc sharedKey iv content) ++ '?' :: 'i' :: 'v' :: '=' :: b64EncodeL iv

/-- `decryptNIP04` (src `nostrRelay.ts`): split on `?iv=`, reject when either
part is missing or empty, base64-decode both, then run the cipher; any
failure yields `none` (the source returns `null` from its catch-all). -/
def decryptNIP04 (C : BlockCipher) (sharedKey : List Byte) (s : List Char) :
    Option (List Byte) :=
  match splitOnIv s with
  | ct :: ivb :: _ =>
      if ct = [] ∨ ivb = [] then none
      else
        match b64DecodeL ivb, b64DecodeL ct with
        | some iv, some cbytes => C.dec sharedKey iv cbytes
        | _, _ => none
  | _ => none

/-! ## Scheme v2 (NIP-44) — modelled from the spec

The source (`nip44.ts`) calls `nip44.v2.encrypt` / `nip44.v2.decrypt` from
the `nostr-tools` library, which is not under `src/`.  Modelled from the
spec: "AEAD stream construction keyed by a conversation key … KDF expansion
yielding independent cipher and authentication sub-keys from a per-message
nonce; plaintext is length-padded before encryption to a power-of-two
boundary …; output is self-describing (embeds a version byte, nonce,
ciphertext, authentication tag) and concatenation order is fixed.
Decryption MUST verify the authentication tag before returning plaintext and
fail closed (no partial plaintext) on mismatch." -/
structure NIP44Prims where
  keystream : List Byte → List Byte → Nat → Byte
  mac : List Byte → List Byte → List Byte → List Byte
  mac_length : ∀ k n c, (mac k n c).length = 32

/-- Smallest power-of-two-scaled bound used as the padding target
(computed with explicit fuel so it reduces definitionally). -/
def pow2geAux (t : Nat) : Nat → Nat → Nat
  | 0, acc => acc
  | f + 1, acc => if t ≤ acc then acc else pow2geAux t f (acc * 2)

/-- Padding target: the plaintext is padded up to a power-of-two boundary
(at least 32 bytes). -/
def padTargetLen (l : Nat) : Nat := pow2geAux (max 32 l) (max 32 l) 32

/-- Length-prefix (two bytes, big-endian) the plaintext and zero-pad it to
the power-of-two boundary. -/
def padPlaintext (pt : List Byte) : List Byte :=
  ⟨pt.length / 256 % 256, Nat.mod_lt _ (by norm_num)⟩ ::
  ⟨pt.length % 256, Nat.mod_lt _ (by norm_num)⟩ ::
  (pt ++ List.replicate (padTargetLen pt.length - pt.length) 0)

/-- Undo `padPlaintext`: read the length prefix and take that many bytes. -/
def unpadPlaintext : List Byte → Option (List Byte)
  | l0 :: l1 :: rest =>
      if l0.val * 256 + l1.val ≤ rest.length then
        some (rest.take (l0.val * 256 + l1.val))
      else none
  | _ => none

/-- Stream-cipher application: xor each byte with the keystream at its index. -/
def xorKS (ks : Nat → Byte) : Nat → List Byte → List Byte
  | _, [] => []
  | i, b :: rest => byteXor b (ks i) :: xorKS ks (i + 1) rest

/-- Ciphertext of the v2 construction (padded plaintext xor keystream). -/
def nip44CT (P : NIP44Prims) (key nonce pt : List Byte) : List Byte :=
  xorKS (P.keystream key nonce) 0 (padPlaintext pt)

/-- Authentication tag of the v2 construction. -/
def nip44Tag (P : NIP44Prims) (key nonce pt : List Byte) : List Byte :=
  P.mac key nonce (nip44CT P key nonce pt)

/-- Self-describing v2 payload: version byte `0x02`, then nonce, ciphertext
and authentication tag in fixed order. -/
def nip44Payload (P : NIP44Prims) (key nonce pt : List Byte) : List Byte :=
  2 :: (nonce ++ (nip44CT P key nonce pt ++ nip44Tag P key nonce pt))

/-- `encryptNIP44`: base64 of the self-describing payload. -/
def encryptNIP44 (P : NIP44Prims) (key nonce pt : List Byte) : List Char :=
  b64EncodeL (nip44Payload P key nonce pt)

/-- Decrypt an already base64-decoded v2 payload: check the version byte,
split off nonce, ciphertext and tag, verify the tag, then decrypt. -/
def decryptNIP44Core (P : NIP44Prims) (key : List Byte) : List Byte → Option (List Byte)
  | v :: rest =>
      if v = 2 ∧ 64 ≤ rest.length then
        let nonce := rest.take 32
        let body := rest.drop 32
        let ct := body.take (body.length - 32)
        let tag := body.drop (body.length - 32)
        if P.mac key nonce ct = tag then
          unpadPlaintext (xorKS (P.keystream key nonce) 0 ct)
        else none
      else none
  | [] => none

/-- `decryptNIP44`: parse the payload, recompute the tag over the received
ciphertext and compare before decrypting; fail closed (`none`) on any
mismatch or malformed input. -/
def decryptNIP44 (P : NIP44Prims) (key : List Byte) (s : List Char) :
    Option (List Byte) :=
  (b64DecodeL s).bind (fun payload => decryptNIP44Core P key payload)

/-- A v2 payload whose authentication tag has byte `i` replaced by `t`,
leaving version, nonce and ciphertext untouched. -/
def tamperTagByte (P : NIP44Prims) (key nonce pt : List Byte) (i : Nat) (t : Byte) :
    List Char :=
  b64EncodeL (2 :: (nonce ++ (nip44CT P key nonce pt ++ (nip44Tag P key nonce pt).set i t)))

/-- A concrete cipher instance used to exercise the v1 wrapper on closed inputs. -/
def idCipher : BlockCipher where
  enc := fun _ _ d => d ++ [0]
  dec := fun _ _ d => if d = [] then none else some d.dropLast
  dec_enc := by
    intro k iv d
    simp
  enc_ne := by
    intro k iv d
    simp

/-- A concrete primitive instance used to exercise the v2 scheme on closed inputs. -/
def zeroPrims : NIP44Prims where
  keystream := fun _ _ _ => 0
  mac := fun _ _ _ => List.replicate 32 0
  mac_length := by
    intro k n c
    simp

/-! ## Relay store (`relayStore.ts`) -/

/-- JSON values, modelling what `JSON.parse` can return for the stored
relay list. -/
inductive JVal where
  | null
  | boolean (b : Bool)
  | num (n : Int)
  | str (s : String)
  | arr (xs : List JVal)
  | obj (fields : List (String × JVal))

/-- The built-in relay list (`DEFAULT_RELAYS`, nine entries). -/
def DEFAULT_RELAYS : List String :=
  ["wss://nos.lol/",
   "wss://nostr.wine/",
   "wss://offchain.pub/",
   "wss://purplepag.es/",
   "wss://relay.damus.io/",
   "wss://relay.primal.net/",
   "wss://relay.snort.social/",
   "wss://nostr.bitcoiner.social/",
   "wss://relay.nostr.band/"]

/-- `getRelays` (\"relayStore.ts\"): the argument models the stored value —
`none` when nothing is stored, `some none` when `JSON.parse` throws, and
`some (some v)` for a parsed value `v`.  Only a parsed non-empty array is
returned as-is; everything else falls back to the defaults. -/
def getRelays (stored : Option (Option JVal)) : List JVal :=
  match stored with
  | some (some (JVal.arr xs)) => if 0 < xs.length then xs else DEFAULT_RELAYS.map JVal.str
  | _ => DEFAULT_RELAYS.map JVal.str

/-- JS strict equality `r !== url` between a JSON value and a string (true
only for that exact string). -/
def jvalEqStr : JVal → String → Bool
  | JVal.str s, u => s = u
  | _, _ => false

/-- `removeRelay`: read the current list, drop exact matches of `url`, and
persist the result (the caller stores it back, modelled by the theorem). -/
def removeRelay (url : String) (stored : Option (Option JVal)) : List JVal :=
  (getRelays stored).filter (fun r => !jvalEqStr r url)

/-! ## Secret Aggregator (`relaySecrets.ts`, progressive version) -/

/-- `RelaySecret` as produced by `parseSecretEvent` and aggregated by
`fetchSecretsFromRelays` (dates as unix milliseconds). -/
structure RelaySecret where
  id : String
  eventId : String
  title : String
  encryptedContent : List Char
  encryptionVersion : Nat
  tags : List String
  keyId : String
  keyName : String
  createdAt : Nat
  relays : List String
deriving DecidableEq

/-- One step of `mergeAndNotify`'s loop: a repeat observation of an id only
unions the relay into the existing entry's membership; a first observation
appends a new entry whose membership is exactly that relay.  (The source
keys entries by a `Map`; with the ids kept unique this is the in-place
mutation it performs.) -/
def mergeOne (relayUrl : String) (st : List RelaySecret) (secret : RelaySecret) :
    List RelaySecret :=
  if st.any (fun e => e.id = secret.id) then
    st.map (fun e =>
      if e.id = secret.id ∧ ¬ relayUrl ∈ e.relays then
        { e with relays := e.relays ++ [relayUrl] }
      else e)
  else st ++ [{ secret with relays := [relayUrl] }]

/-- `mergeAndNotify relayUrl newSecrets`: merge one relay's batch into the
running map (the progress callback only reports a sorted copy and is not
part of the state). -/
def mergeAndNotify (relayUrl : String) (newSecrets : List RelaySecret)
    (st : List RelaySecret) : List RelaySecret :=
  newSecrets.foldl (mergeOne relayUrl) st

/-- The settled result of `fetchSecretsFromRelays`' merging, for a given
sequence of per-relay completions (`arrivals` lists each completed relay
with the secrets it delivered, in completion order). -/
def aggregateSecrets (arrivals : List (String × List RelaySecret)) : List RelaySecret :=
  arrivals.foldl (fun st a => mergeAndNotify a.1 a.2 st) []

/-- The relay-membership list recorded for id `x`. -/
def relaysOf (x : String) (st : List RelaySecret) : List String :=
  match st.find? (fun e => e.id = x) with
  | some e => e.relays
  | none => []

/-- The relays that delivered at least one record with id `x`, in completion
order. -/
def deliverers (x : String) (arrivals : List (String × List RelaySecret)) : List String :=
  (arrivals.filter (fun a => a.2.any (fun s => s.id = x))).map Prod.fst

/-- The ids present in the aggregation state. -/
def idsOf (st : List RelaySecret) : List String := st.map (fun s => s.id)

/-- A parsed record (the aggregator fills `relays` in itself). -/
def rsW : RelaySecret :=
  { id := "e1", eventId := "e1", title := "t", encryptedContent := [],
    encryptionVersion := 2, tags := [], keyId := "k", keyName := "kn",
    createdAt := 5, relays := [] }

/-- Two relays independently delivering the same record id. -/
def arrivalsW : List (String × List RelaySecret) := [("r1", [rsW]), ("r2", [rsW])]

/-! ## Sync Reconciler (fetch-and-forward `relaySync`) -/

/-- A signed protocol record as relays deliver it. -/
structure NostrEvent where
  id : String
  pubkey : String
  created_at : Nat
  kind : Nat
  tags : List (List String)
  content : List Char
  sig : String
deriving DecidableEq

/-- `fetchEventFromRelay`: subscribe with `{ids: [eventId]}` and resolve the
first delivered event whose id matches; `EOSE`, error or timeout resolve
`null`.  `stream r` models the events relay `r` delivers before `EOSE`. -/
def fetchEventFromRelay (stream : String → List NostrEvent) (eventId relayUrl : String) :
    Option NostrEvent :=
  (stream relayUrl).find? (fun e => e.id = eventId)

/-- `fetchOriginalEvent`: try each source relay in order, returning the
first hit. -/
def fetchOriginalEvent (stream : String → List NostrEvent) (eventId : String) :
    List String → Option NostrEvent
  | [] => none
  | r :: rest =>
      match fetchEventFromRelay stream eventId r with
      | some e => some e
      | none => fetchOriginalEvent stream eventId rest

/-- Effect-explicit result of `republishToRelays`: the `EVENT` frames sent
(relay, record) plus the reported success/failure lists. -/
structure RepublishResult where
  sends : List (String × NostrEvent)
  success : List String
  failed : List String
deriving DecidableEq

/-- `republishToRelays` (fetch-and-forward version): fetch the original
signed record by id from the secret's membership relays and forward it, as
is, to each target relay; with no original record, publish nothing and fail
every target.  `pub r e` models whether relay `r` acknowledges record `e`.
(The key argument of the source is unused — "no longer needed but kept for
API compatibility".) -/
def republishToRelays (stream : String → List NostrEvent) (pub : String → NostrEvent → Bool)
    (secret : RelaySecret) (targetRelays : List String) : RepublishResult :=
  if targetRelays = [] then ⟨[], [], []⟩
  else
    match fetchOriginalEvent stream secret.eventId secret.relays with
    | none => ⟨[], [], targetRelays⟩
    | some ev =>
        { sends := targetRelays.map (fun r => (r, ev))
          success := targetRelays.filter (fun r => pub r ev)
          failed := targetRelays.filter (fun r => !pub r ev) }

/-- `SyncResult` for one secret. -/
structure SyncResult where
  secretId : String
  newlySynced : List String
  failed : List String
deriving DecidableEq

/-- `syncSingleSecret`: compute the missing relays from the configured list
and repair through `republishToRelays` (the configured relay list is passed
explicitly; the source reads it from the store). -/
def syncSingleSecret (stream : String → List NostrEvent) (pub : String → NostrEvent → Bool)
    (relayConfig : List String) (secret : RelaySecret) : SyncResult :=
  let missingRelays := relayConfig.filter (fun r => !(r ∈ secret.relays : Bool))
  if missingRelays = [] then ⟨secret.id, [], []⟩
  else
    let result := republishToRelays stream pub secret missingRelays
    ⟨secret.id, result.success, result.failed⟩

/-! ## New-write encryption choices (C4) -/

/-- The event content published by `saveSecretToRelays` (`relaySecrets.ts`
356–368): the serialized payload encrypted with NIP-44. -/
def saveSecretEventContent (P : NIP44Prims) (convKey nonce payload : List Byte) : List Char :=
  encryptNIP44 P convKey nonce payload

/-- The scheme version written into the payload by `saveSecretToRelays`
(`version: 2`). -/
def saveSecretPayloadVersion : Nat := 2

/-- The event content published by `sendDM` (`nostrRelay.ts` 586–614), the
sender used by the offline queue's retry path: the queued content encrypted
with NIP-04. -/
def sendDMEventContent (C : BlockCipher) (sharedKey iv content : List Byte) : List Char :=
  encryptNIP04 C sharedKey iv content

/-! ## Offline Write Queue (`offlineQueue.ts`) -/

/-- JavaScript truthiness of an optional string field (`undefined` and the
empty string are falsy). -/
def truthyS : Option String → Bool
  | none => false
  | some s => !(s = "")

/-- A key as stored on a queued item; `privateKey` is `none` after the
at-rest strip (`privateKey intentionally omitted for security`). -/
structure QKey where
  id : String
  name : String
  publicKey : String
  privateKey : Option String
deriving DecidableEq

/-- `QueuedSecret`. -/
structure QueuedSecret where
  id : String
  key : QKey
  recipientPubkeyHex : String
  content : List Char
  createdAt : Nat
  retryCount : Nat
  lastRetry : Option Nat
  error : Option String
deriving DecidableEq

def MAX_RETRIES : Nat := 5

def RETRY_DELAYS : List Nat := [5000, 15000, 30000, 60000, 120000]

/-- `RETRY_DELAYS[Math.min(retryCount, RETRY_DELAYS.length - 1)]`. -/
def delayFor (retryCount : Nat) : Nat :=
  RETRY_DELAYS.getD (min retryCount (RETRY_DELAYS.length - 1)) 0

/-- `(item.lastRetry || item.createdAt) + delay` (a recorded `lastRetry` is
a `Date.now()` value, hence truthy whenever present). -/
def nextRetryAt (item : QueuedSecret) : Nat :=
  item.lastRetry.getD item.createdAt + delayFor item.retryCount

/-- The `processQueue` retry filter: not exhausted, hydrated, and due. -/
def retryEligible (now : Nat) (item : QueuedSecret) : Bool :=
  !(MAX_RETRIES ≤ item.retryCount : Bool) && truthyS item.key.privateKey &&
    (nextRetryAt item ≤ now : Bool)

/-- `removeFromQueue`. -/
def removeFromQueue (id : String) (pending : List QueuedSecret) : List QueuedSecret :=
  pending.filter (fun item => !(item.id = id))

/-- The failure branch of a retry attempt: `item.retryCount++`,
`item.lastRetry = Date.now()`, `item.error = …` on the queued object
(message text elided). -/
def bumpRetry (now : Nat) (id : String) (pending : List QueuedSecret) : List QueuedSecret :=
  pending.map (fun j =>
    if j.id = id then
      { j with retryCount := j.retryCount + 1, lastRetry := some now,
               error := some "send failed" }
    else j)

/-- State after `processQueue`, with the removed (successfully sent) items
logged. -/
structure ProcessOutcome where
  pending : List QueuedSecret
  removed : List QueuedSecret
deriving DecidableEq

/-- One retry attempt of `processQueue`'s loop: success removes the item
from the queue (and is logged), failure bumps its retry state. -/
def processStep (send : QueuedSecret → Bool) (now : Nat) (acc : ProcessOutcome)
    (item : QueuedSecret) : ProcessOutcome :=
  if send item then ⟨removeFromQueue item.id acc.pending, acc.removed ++ [item]⟩
  else ⟨bumpRetry now item.id acc.pending, acc.removed⟩

/-- `processQueue`: under the guards (not already processing, non-empty,
online), compute the eligible items up front, then attempt each in order —
success removes the item, failure bumps its retry state.  `send` models one
`sendDM` attempt (`false` covers both a failed confirmation and a thrown
error, which differ only in the message recorded). -/
def processQueue (send : QueuedSecret → Bool) (now : Nat) (online processing : Bool)
    (pending : List QueuedSecret) : ProcessOutcome :=
  if processing then ⟨pending, []⟩
  else if pending = [] then ⟨pending, []⟩
  else if !online then ⟨pending, []⟩
  else (pending.filter (retryEligible now)).foldl (processStep send now) ⟨pending, []⟩

/-- A fully hydrated key for the queue witnesses. -/
def qkFull : QKey := { id := "k1", name := "key", publicKey := "npub1a",
                       privateKey := some "nsec1a" }

/-- An eligible queued item (never retried, created at time 0). -/
def qItemW : QueuedSecret := { id := "q1", key := qkFull, recipientPubkeyHex := "rcpt",
                               content := [], createdAt := 0, retryCount := 0,
                               lastRetry := none, error := none }

/-- An exhausted queued item (`retryCount = MAX_RETRIES`). -/
def qItemX : QueuedSecret := { id := "q2", key := qkFull, recipientPubkeyHex := "rcpt",
                               content := [], createdAt := 0, retryCount := 5,
                               lastRetry := none, error := none }

/-- A key reference as it comes back from the durable store: private
material stripped. -/
def qkStripped : QKey := { id := "k1", name := "key", publicKey := "npub1a",
                           privateKey := none }

/-- A queued item whose key cannot be hydrated (not in the supplied list). -/
def qItemStripped : QueuedSecret := { id := "q9", key := qkStripped,
                                      recipientPubkeyHex := "rcpt", content := [],
                                      createdAt := 0, retryCount := 0,
                                      lastRetry := none, error := none }

/-- The wait `scheduleRetry` computes before its next `processQueue` run:
the minimum over non-exhausted items of their remaining wait, floored at 0,
starting from `RETRY_DELAYS[0]`. -/
def scheduleWaitMs (now : Nat) (pending : List QueuedSecret) : Nat :=
  pending.foldl
    (fun acc item =>
      if MAX_RETRIES ≤ item.retryCount then acc
      else if nextRetryAt item - now < acc then nextRetryAt item - now else acc)
    (RETRY_DELAYS.getD 0 0)

/-- The per-item mapping of `hydrateQueueWithKeys`: look the key reference up
in the supplied list (a JS `Map` built from the list — last entry wins on a
duplicate id) and swap the full key in when found. -/
def hydrateItem (keys : List QKey) (item : QueuedSecret) : QueuedSecret :=
  match keys.reverse.find? (fun k => k.id = item.key.id) with
  | some fullKey => { item with key := fullKey }
  | none => item

/-- `hydrateQueueWithKeys`: hydrate each item, then `.filter(item =>
item.key.privateKey)` — items left without private material are removed. -/
def hydrateQueueWithKeys (keys : List QKey) (pending : List QueuedSecret) :
    List QueuedSecret :=
  (pending.map (hydrateItem keys)).filter (fun item => truthyS item.key.privateKey)

/-- `retryOne` (`useOfflineQueue.ts`): find the item, require private
material, send once; only a confirmed success removes it, nothing else is
modified. -/
def retryOne (send : QueuedSecret → Bool) (id : String) (pending : List QueuedSecret) :
    List QueuedSecret :=
  match pending.find? (fun q => q.id = id) with
  | none => pending
  | some item =>
      if !truthyS item.key.privateKey then pending
      else if send item then removeFromQueue id pending
      else pending

/-! ## Vault self-healing (`vaultIntegrity.ts`) -/

/-- Prefix test over character lists (JavaScript `String.startsWith`). -/
def listStartsWith : List Char → List Char → Bool
  | [], _ => true
  | _ :: _, [] => false
  | p :: ps, c :: cs => decide (p = c) && listStartsWith ps cs

/-- A vault key record; fields are optional to model missing or non-string
values in corrupted data. -/
structure NKey where
  id : Option String
  name : Option String
  publicKey : Option String
  privateKey : Option String
deriving DecidableEq

/-- A signing-log record (`timestamp` is a `Date`, truthy whenever present). -/
structure SLog where
  id : Option String
  keyId : Option String
  timestamp : Option Nat
deriving DecidableEq

/-- `VaultData` as `selfHealVault` consumes it (the fields it reads). -/
structure VaultData where
  keys : List NKey
  logs : List SLog
  defaultKeyId : Option String
  deletedSecretIds : List (Option String)
deriving DecidableEq

/-- `validateKey`: all four fields present, non-empty strings, with the
`npub1` / `nsec1` prefixes (prefix issues are only raised for truthy
fields, as in the source). -/
def validateKey (k : NKey) : Bool :=
  truthyS k.id && truthyS k.name && truthyS k.publicKey && truthyS k.privateKey &&
  (!truthyS k.publicKey || listStartsWith "npub1".toList (k.publicKey.getD "").toList) &&
  (!truthyS k.privateKey || listStartsWith "nsec1".toList (k.privateKey.getD "").toList)

/-- `validateLog`: id and keyId are non-empty strings, timestamp present. -/
def validateLog (l : SLog) : Bool :=
  truthyS l.id && truthyS l.keyId && l.timestamp.isSome

/-- Accumulator of the key-healing loop. -/
structure HealAcc where
  validKeys : List NKey
  seenKeyIds : List String
  repairs : List String
deriving DecidableEq

/-- One step of the key-healing loop: duplicates of an already-seen (truthy)
id are dropped, then invalid keys are dropped; survivors record their id as
seen.  Repair messages are modelled by fixed strings (the source interpolates
names into them). -/
def healKeysStep (acc : HealAcc) (key : NKey) : HealAcc :=
  if truthyS key.id && decide ((key.id.getD "") ∈ acc.seenKeyIds) then
    { acc with repairs := acc.repairs ++ ["Removed duplicate key"] }
  else if validateKey key then
    { acc with validKeys := acc.validKeys ++ [key],
               seenKeyIds := acc.seenKeyIds ++ [key.id.getD ""] }
  else
    { acc with repairs := acc.repairs ++ ["Removed corrupted key"] }

/-- First-occurrence-preserving deduplication (JS `[...new Set(l)]`). -/
def jsSetDedupAux {α : Type} [DecidableEq α] (seen : List α) : List α → List α
  | [] => []
  | a :: rest =>
      if a ∈ seen then jsSetDedupAux seen rest
      else a :: jsSetDedupAux (seen ++ [a]) rest

/-- JS `[...new Set(l)]`. -/
def jsSetDedup {α : Type} [DecidableEq α] (l : List α) : List α := jsSetDedupAux [] l

/-- The tombstone filter: keep only non-empty strings. -/
def tombstoneKeep : Option String → Bool
  | some s => decide (0 < s.length)
  | none => false

/-- One step of the log-healing loop: drop invalid entries, drop orphans
(entries whose key id is not among the surviving keys), keep the rest. -/
def healLogsStep (keyIds : List String) (acc : List SLog × List String) (log : SLog) :
    List SLog × List String :=
  if !validateLog log then (acc.1, acc.2 ++ ["Removed corrupted log entry"])
  else if !decide ((log.keyId.getD "") ∈ keyIds) then
    (acc.1, acc.2 ++ ["Removed orphaned log (key deleted)"])
  else (acc.1 ++ [log], acc.2)

/-- The key-healing loop of `selfHealVault` (its `validKeys` / `seenKeyIds` /
`repairs` locals). -/
def healKeysAcc (data : VaultData) : HealAcc := data.keys.foldl healKeysStep ⟨[], [], []⟩

/-- The `keyIds` set of `selfHealVault` (ids of the surviving keys). -/
def healedKeyIds (data : VaultData) : List String :=
  (healKeysAcc data).validKeys.map (fun k => k.id.getD "")

/-- The log-healing loop of `selfHealVault`. -/
def healLogsAcc (data : VaultData) : List SLog × List String :=
  data.logs.foldl (healLogsStep (healedKeyIds data)) ([], [])

/-- The default-key repair of `selfHealVault`: a truthy reference to a
non-surviving key is replaced by the first surviving key's id, or cleared
when no keys remain; anything else (including a falsy reference) is kept. -/
def healDefaultKey (data : VaultData) : Option String × List String :=
  if truthyS data.defaultKeyId && !decide ((data.defaultKeyId.getD "") ∈ healedKeyIds data) then
    match (healKeysAcc data).validKeys with
    | [] => (none, ["Cleared defaultKeyId (referenced deleted key)"])
    | k :: _ => (k.id, ["Cleared defaultKeyId (referenced deleted key)",
                        "Set new defaultKeyId to first available key"])
  else (data.defaultKeyId, [])

/-- The tombstone repair of `selfHealVault`: `[...new Set(ids)]` then keep
only non-empty strings. -/
def healTombstones (data : VaultData) : List (Option String) :=
  (jsSetDedup data.deletedSecretIds).filter tombstoneKeep

/-- `selfHealVault` (`vaultIntegrity.ts` 846-918): heal keys (drop
duplicates and invalid ones), drop invalid and orphaned logs, repair a
truthy dangling default-key reference to the first remaining key (or clear
it), and deduplicate/clean the tombstone list; returns the healed vault and
the repair report.  It is a total function (the source never throws). -/
def selfHealVault (data : VaultData) : VaultData × List String :=
  ({ keys := (healKeysAcc data).validKeys,
     logs := (healLogsAcc data).1,
     defaultKeyId := (healDefaultKey data).1,
     deletedSecretIds := healTombstones data },
   (healKeysAcc data).repairs ++ (healLogsAcc data).2 ++ (healDefaultKey data).2 ++
     (if data.deletedSecretIds.length = (healTombstones data).length then []
      else ["Cleaned deletedSecretIds (removed duplicates/invalid entries)"]))

/-- A well-formed key for the self-heal counterexample. -/
def cexKey : NKey := { id := some "k1", name := some "n", publicKey := some "npub1x",
                       privateKey := some "nsec1x" }

/-- A vault whose default-key reference is the empty string: falsy in
JavaScript, so the healing guard skips it although it resolves to no key. -/
def cexVault : VaultData := { keys := [cexKey], logs := [], defaultKeyId := some "",
                              deletedSecretIds := [] }

/-! # Theorems -/

/-! ## Base64 facts -/

theorem byteXor_cancel (a b : Byte) : byteXor (byteXor a b) b = a := by
  apply Fin.ext
  simp [byteXor, Nat.xor_assoc]

theorem byteXor_zero (a : Byte) : byteXor a 0 = a := by
  apply Fin.ext
  simp [byteXor]

theorem sextetOfChar_charOfSextet : ∀ s : Fin 64, sextetOfChar (charOfSextet s) = some s := by
  decide

theorem charOfSextet_ne_eq : ∀ s : Fin 64, charOfSextet s ≠ '=' := by
  decide

theorem charOfSextet_ne_qmark : ∀ s : Fin 64, charOfSextet s ≠ '?' := by
  decide

theorem sextetOfChar_eqsign : sextetOfChar '=' = none := by decide

theorem b64_decode_encode : ∀ bs : List Byte, b64DecodeL (b64EncodeL bs) = some bs := by
  intro bs
  induction bs using b64EncodeL.induct with
  | case1 => rfl
  | case2 a =>
      have ha := a.isLt
      simp only [b64EncodeL, b64DecodeL, sextetOfChar_charOfSextet, sextetOfChar_eqsign,
        and_self, if_true, reduceIte, Option.some.injEq, List.cons_eq_cons,
        Fin.ext_iff, and_true] <;> omega
  | case3 a b =>
      have ha := a.isLt
      have hb := b.isLt
      simp only [b64EncodeL, b64DecodeL, sextetOfChar_charOfSextet, sextetOfChar_eqsign,
        and_self, if_true, reduceIte, Option.some.injEq, List.cons_eq_cons,
        Fin.ext_iff, and_true] <;> omega
  | case4 a b c rest ih =>
      have ha := a.isLt
      have hb := b.isLt
      have hc := c.isLt
      simp only [b64EncodeL, b64DecodeL, sextetOfChar_charOfSextet, ih, Option.map_some,
        Option.map_some', Option.some.injEq, List.cons_eq_cons, Fin.ext_iff, and_true] <;> omega

theorem b64Encode_mem_ne_qmark : ∀ (bs : List Byte) (c : Char), c ∈ b64EncodeL bs → c ≠ '?' := by
  intro bs
  induction bs using b64EncodeL.induct with
  | case1 => intro c hc; simp [b64EncodeL] at hc
  | case2 a =>
      intro c hc
      simp only [b64EncodeL, List.mem_cons, List.not_mem_nil, or_false] at hc
      rcases hc with h | h | h | h <;> subst h
      · exact charOfSextet_ne_qmark _
      · exact charOfSextet_ne_qmark _
      · intro h; cases h
      · intro h; cases h
  | case3 a b =>
      intro c hc
      simp only [b64EncodeL, List.mem_cons, List.not_mem_nil, or_false] at hc
      rcases hc with h | h | h | h <;> subst h
      · exact charOfSextet_ne_qmark _
      · exact charOfSextet_ne_qmark _
      · exact charOfSextet_ne_qmark _
      · intro h; cases h
  | case4 a b c' rest ih =>
      intro c hc
      simp only [b64EncodeL, List.mem_cons] at hc
      rcases hc with h | h | h | h | h
      · subst h; exact charOfSextet_ne_qmark _
      · subst h; exact charOfSextet_ne_qmark _
      · subst h; exact charOfSextet_ne_qmark _
      · subst h; exact charOfSextet_ne_qmark _
      · exact ih c h

theorem b64Encode_ne_nil : ∀ bs : List Byte, bs ≠ [] → b64EncodeL bs ≠ [] := by
  intro bs h
  match bs with
  | [] => exact absurd rfl h
  | [a] => simp [b64EncodeL]
  | [a, b] => simp [b64EncodeL]
  | a :: b :: c :: rest => simp [b64EncodeL]

/-- The first output character encodes the top six bits of the first byte. -/
theorem b64Encode_head (b : Byte) (rest : List Byte) :
    (b64EncodeL (b :: rest)).head? =
      some (charOfSextet ⟨b.val / 4, by have := b.isLt; omega⟩) := by
  match rest with
  | [] => rfl
  | [x] => rfl
  | x :: y :: more => rfl

/-! ## Splitting on the legacy separator -/

theorem splitOnIvF_fuel : ∀ (f : Nat) (s : List Char), s.length ≤ f →
    splitOnIvF f s = splitOnIv s := by
  intro f
  induction f using Nat.strong_induction_on with
  | _ f ih =>
      intro s hs
      match f, s with
      | g, [] =>
          cases g <;> rfl
      | 0, c :: rest =>
          simp at hs
      | f + 1, c :: rest =>
          simp only [List.length_cons] at hs
          show splitOnIvF (f + 1) (c :: rest) = splitOnIvF (rest.length + 1) (c :: rest)
          by_cases hc : c = '?' ∧ rest.take 3 = ['i', 'v', '=']
          · rw [splitOnIvF, if_pos hc, splitOnIvF, if_pos hc]
            have hlen : (rest.drop 3).length ≤ rest.length := by
              simp
            rw [ih f (by omega) _ (by omega), ih rest.length (by omega) _ (by omega)]
          · rw [splitOnIvF, if_neg hc, splitOnIvF, if_neg hc]
            rw [ih f (by omega) _ (by omega)]
            rfl

theorem splitOnIv_nil : splitOnIv [] = [[]] := rfl

theorem splitOnIv_cons_ne (c : Char) (rest : List Char) (hc : c ≠ '?') :
    splitOnIv (c :: rest) = consHead c (splitOnIv rest) := by
  show splitOnIvF (rest.length + 1) (c :: rest) = _
  rw [splitOnIvF, if_neg (by
    intro h
    exact hc h.1)]
  rfl

theorem splitOnIv_sep (y : List Char) :
    splitOnIv ('?' :: 'i' :: 'v' :: '=' :: y) = [] :: splitOnIv y := by
  show splitOnIvF (y.length + 4) ('?' :: 'i' :: 'v' :: '=' :: y) = _
  rw [splitOnIvF, if_pos (by exact ⟨rfl, rfl⟩)]
  rw [show (('i' :: 'v' :: '=' :: y).drop 3) = y from rfl]
  rw [splitOnIvF_fuel _ _ (by simp)]

theorem splitOnIv_no_sep (s : List Char) (h : ∀ c ∈ s, c ≠ '?') : splitOnIv s = [s] := by
  induction s with
  | nil => exact splitOnIv_nil
  | cons c rest ih =>
      have hc : c ≠ '?' := h c (List.mem_cons_self c rest)
      have hrest := ih fun x hx => h x (List.mem_cons_of_mem c hx)
      rw [splitOnIv_cons_ne c rest hc, hrest]
      rfl

theorem splitOnIv_append_sep (x y : List Char) (hx : ∀ c ∈ x, c ≠ '?') :
    splitOnIv (x ++ '?' :: 'i' :: 'v' :: '=' :: y) = x :: splitOnIv y := by
  induction x with
  | nil => simpa using splitOnIv_sep y
  | cons c x' ih =>
      have hc : c ≠ '?' := hx c (List.mem_cons_self c x')
      have h' := ih fun a ha => hx a (List.mem_cons_of_mem c ha)
      rw [List.cons_append, splitOnIv_cons_ne c _ hc, h']
      rfl

/-! ## Scheme v1 round trip -/

theorem nip04_decrypt_encrypt (C : BlockCipher) (key iv content : List Byte)
    (hiv : iv.length = 16) :
    Nostr.decryptNIP04 C key (encryptNIP04 C key iv content) = some content := by
  have hct : C.enc key iv content ≠ [] := C.enc_ne key iv content
  have hb1 : b64EncodeL (C.enc key iv content) ≠ [] := b64Encode_ne_nil _ hct
  have hivne : iv ≠ [] := by
    intro h
    rw [h] at hiv
    simp at hiv
  have hb2 : b64EncodeL iv ≠ [] := b64Encode_ne_nil _ hivne
  have hsplit : splitOnIv (encryptNIP04 C key iv content) =
      [b64EncodeL (C.enc key iv content), b64EncodeL iv] := by
    unfold encryptNIP04
    rw [splitOnIv_append_sep _ _ (fun c hc => b64Encode_mem_ne_qmark _ c hc),
      splitOnIv_no_sep _ (fun c hc => b64Encode_mem_ne_qmark _ c hc)]
  unfold decryptNIP04
  rw [hsplit]
  simp only []
  rw [if_neg (by
    intro h
    rcases h with h | h
    · exact hb1 h
    · exact hb2 h)]
  rw [b64_decode_encode, b64_decode_encode]
  exact C.dec_enc key iv content

/-! ## Scheme v2 round trip and authentication -/

theorem take_len_append {α : Type} (xs ys : List α) : (xs ++ ys).take xs.length = xs := by
  induction xs with
  | nil => rfl
  | cons a l ih => simp [ih]

theorem drop_len_append {α : Type} (xs ys : List α) : (xs ++ ys).drop xs.length = ys := by
  induction xs with
  | nil => rfl
  | cons a l ih => simp [ih]

theorem set_ne_of_getD {α : Type} (l : List α) (i : Nat) (v d : α)
    (hi : i < l.length) (hv : v ≠ l.getD i d) : l.set i v ≠ l := by
  induction l generalizing i with
  | nil => simp at hi
  | cons a l ih =>
      cases i with
      | zero =>
          intro h
          exact hv (by simpa using congrArg (fun t => t.getD 0 d) h)
      | succ j =>
          intro h
          simp only [List.set] at h
          have hj : j < l.length := by simpa using hi
          have hv' : v ≠ l.getD j d := by simpa [List.getD] using hv
          exact ih j hj hv' (by simpa using h)

theorem xorKS_length (ks : Nat → Byte) : ∀ (i : Nat) (l : List Byte),
    (xorKS ks i l).length = l.length := by
  intro i l
  induction l generalizing i with
  | nil => rfl
  | cons b rest ih => simp [xorKS, ih]

theorem xorKS_involution (ks : Nat → Byte) : ∀ (i : Nat) (l : List Byte),
    xorKS ks i (xorKS ks i l) = l := by
  intro i l
  induction l generalizing i with
  | nil => rfl
  | cons b rest ih => simp [xorKS, byteXor_cancel, ih]

theorem unpad_pad (pt : List Byte) (h : pt.length ≤ 65535) :
    unpadPlaintext (padPlaintext pt) = some pt := by
  have hn : pt.length / 256 % 256 * 256 + pt.length % 256 = pt.length := by omega
  simp only [padPlaintext, unpadPlaintext]
  rw [if_pos (by
    simp only [List.length_append, List.length_replicate]
    omega)]
  rw [hn]
  rw [take_len_append]

/-- Parsing a well-formed v2 payload reaches the tag comparison with exactly
the embedded nonce, ciphertext and tag. -/
theorem decryptNIP44Core_payload (P : NIP44Prims) (key nonce ct tag : List Byte)
    (hn : nonce.length = 32) (htag : tag.length = 32) :
    decryptNIP44Core P key (2 :: (nonce ++ (ct ++ tag))) =
      (if P.mac key nonce ct = tag then
        unpadPlaintext (xorKS (P.keystream key nonce) 0 ct)
      else none) := by
  rw [decryptNIP44Core]
  rw [if_pos (by
    refine ⟨rfl, ?_⟩
    simp only [List.length_append]
    omega)]
  have h1 : (nonce ++ (ct ++ tag)).take 32 = nonce := by
    rw [← hn]
    exact take_len_append nonce (ct ++ tag)
  have h2 : (nonce ++ (ct ++ tag)).drop 32 = ct ++ tag := by
    rw [← hn]
    exact drop_len_append nonce (ct ++ tag)
  simp only [h1, h2]
  have h3 : (ct ++ tag).length - 32 = ct.length := by
    simp [htag]
  rw [h3, take_len_append, drop_len_append]

theorem nip44_decrypt_encrypt (P : NIP44Prims) (key nonce pt : List Byte)
    (hn : nonce.length = 32) (hl : pt.length ≤ 65535) :
    decryptNIP44 P key (encryptNIP44 P key nonce pt) = some pt := by
  rw [encryptNIP44, decryptNIP44, b64_decode_encode, Option.some_bind]
  rw [nip44Payload, decryptNIP44Core_payload P key nonce _ _ hn
    (show (nip44Tag P key nonce pt).length = 32 from
      P.mac_length key nonce (nip44CT P key nonce pt))]
  rw [if_pos (show P.mac key nonce (nip44CT P key nonce pt) = nip44Tag P key nonce pt
    from rfl)]
  rw [nip44CT, xorKS_involution]
  exact unpad_pad pt hl

theorem nip44_tamper_fails (P : NIP44Prims) (key nonce pt : List Byte) (i : Nat) (t : Byte)
    (hn : nonce.length = 32) (hi : i < 32)
    (ht : t ≠ (nip44Tag P key nonce pt).getD i 0) :
    decryptNIP44 P key (tamperTagByte P key nonce pt i t) = none := by
  have htag : (nip44Tag P key nonce pt).length = 32 :=
    P.mac_length key nonce (nip44CT P key nonce pt)
  rw [tamperTagByte, decryptNIP44, b64_decode_encode, Option.some_bind]
  rw [decryptNIP44Core_payload P key nonce _ _ hn (by simp [htag])]
  rw [if_neg (by
    intro h
    have hne : (nip44Tag P key nonce pt).set i t ≠ nip44Tag P key nonce pt :=
      set_ne_of_getD _ i t 0 (by omega) ht
    exact hne (by rw [← h]; rfl))]

/-! ## Version-detection facts -/

theorem hasIvSep_eq_false (s : List Char) (h : ∀ c ∈ s, c ≠ '?') : hasIvSep s = false := by
  induction s with
  | nil => rfl
  | cons c rest ih =>
      have hc : c ≠ '?' := h c (List.mem_cons_self c rest)
      simp only [hasIvSep, Bool.or_eq_false_iff, Bool.and_eq_false_iff]
      constructor
      · left
        simpa using hc
      · exact ih fun x hx => h x (List.mem_cons_of_mem c hx)

/-- A base64 payload whose first byte is `0x02` starts with `A` and carries
no `?iv=` separator, so the heuristic classifies it as scheme v2. -/
theorem detect_v2_payload (bs : List Byte) :
    detectEncryptionVersion (b64EncodeL (2 :: bs)) = 2 := by
  have hno : hasIvSep (b64EncodeL (2 :: bs)) = false :=
    hasIvSep_eq_false _ (fun c hc => b64Encode_mem_ne_qmark _ c hc)
  have hhead : (b64EncodeL ((2 : Byte) :: bs)).head? = some 'A' := by
    rw [b64Encode_head]
    decide
  simp [detectEncryptionVersion, hno, hhead]

/-- Any string containing the `?iv=` separator is detected. -/
theorem hasIvSep_append_sep (x y : List Char) :
    hasIvSep (x ++ '?' :: 'i' :: 'v' :: '=' :: y) = true := by
  induction x with
  | nil => simp [hasIvSep]
  | cons c x' ih => simp [hasIvSep, ih]

/-- NIP-04 wire output is always classified as scheme v1. -/
theorem detect_nip04_is_v1 (C : BlockCipher) (sharedKey iv content : List Byte) :
    detectEncryptionVersion (encryptNIP04 C sharedKey iv content) = 1 := by
  unfold encryptNIP04 detectEncryptionVersion
  rw [hasIvSep_append_sep]
  rfl

/-- C9: for a ciphertext without an explicit version tag, the `?iv=` legacy
separator forces classification as v1 and takes precedence; otherwise a
payload whose leading base64 character is the encoding of the v2 version
byte `0x02` (the character `A`) is classified as v2; everything else
defaults to v1. -/
theorem c9_detect_encryption_version :
    (∀ s : List Char, hasIvSep s = true → detectEncryptionVersion s = 1)
  ∧ (∀ bs : List Byte, detectEncryptionVersion (b64EncodeL (2 :: bs)) = 2)
  ∧ (∀ s : List Char, hasIvSep s = false → s.head? ≠ some 'A' →
      detectEncryptionVersion s = 1) := by
  refine ⟨?_, ?_, ?_⟩
  · intro s h
    simp [detectEncryptionVersion, h]
  · intro bs
    exact detect_v2_payload bs
  · intro s h1 h2
    simp [detectEncryptionVersion, h1, h2]

/-- C9 witness: the three branches exercised on closed inputs. -/
theorem c9_detect_encryption_version_witness :
    detectEncryptionVersion ['x', '?', 'i', 'v', '=', 'y'] = 1
  ∧ detectEncryptionVersion (b64EncodeL [2]) = 2
  ∧ detectEncryptionVersion ['B'] = 1 :=
  ⟨c9_detect_encryption_version.1 _ (by decide),
   c9_detect_encryption_version.2.1 [],
   c9_detect_encryption_version.2.2 ['B'] (by decide) (by decide)⟩

/-- C3: round-trip correctness of both encryption schemes, and fail-closed
authentication for scheme v2.  Scheme v1: decrypting `encryptNIP04`'s output
with the same shared secret returns the plaintext, for every plaintext
including the empty one.  Scheme v2: decrypting `encryptNIP44`'s output
under the same conversation key returns the plaintext; and decrypting a v2
ciphertext whose authentication tag has any single byte changed yields no
plaintext at all. -/
theorem c3_encryption_roundtrip_and_fail_closed :
    (∀ (C : BlockCipher) (key iv content : List Byte), iv.length = 16 →
        decryptNIP04 C key (encryptNIP04 C key iv content) = some content)
  ∧ (∀ (P : NIP44Prims) (key nonce pt : List Byte), nonce.length = 32 →
        pt.length ≤ 65535 →
        decryptNIP44 P key (encryptNIP44 P key nonce pt) = some pt)
  ∧ (∀ (P : NIP44Prims) (key nonce pt : List Byte) (i : Nat) (t : Byte),
        nonce.length = 32 → i < 32 → t ≠ (nip44Tag P key nonce pt).getD i 0 →
        decryptNIP44 P key (tamperTagByte P key nonce pt i t) = none) :=
  ⟨nip04_decrypt_encrypt, nip44_decrypt_encrypt, nip44_tamper_fails⟩

/-- C3 witness: both round trips and the tag-flip failure on closed inputs
(a two-byte plaintext for v1, the empty plaintext for v2). -/
theorem c3_encryption_roundtrip_witness :
    decryptNIP04 idCipher [] (encryptNIP04 idCipher [] (List.replicate 16 0) [104, 105]) =
      some [104, 105]
  ∧ decryptNIP44 zeroPrims [] (encryptNIP44 zeroPrims [] (List.replicate 32 0) []) = some []
  ∧ decryptNIP44 zeroPrims [] (tamperTagByte zeroPrims [] (List.replicate 32 0) [] 0 1) =
      none :=
  ⟨c3_encryption_roundtrip_and_fail_closed.1 idCipher [] (List.replicate 16 0) [104, 105]
      (by decide),
   c3_encryption_roundtrip_and_fail_closed.2.1 zeroPrims [] (List.replicate 32 0) []
      (by decide) (by decide),
   c3_encryption_roundtrip_and_fail_closed.2.2 zeroPrims [] (List.replicate 32 0) [] 0 1
      (by decide) (by decide) (by decide)⟩

/-! ## Relay store: C10 -/

theorem getRelays_pos (stored : Option (Option JVal)) : 0 < (getRelays stored).length := by
  match stored with
  | none => decide
  | some none => decide
  | some (some v) =>
      cases v with
      | arr xs =>
          simp only [getRelays]
          split
          · omega
          · decide
      | null => decide
      | boolean b => simp [getRelays, DEFAULT_RELAYS]
      | num n => simp [getRelays, DEFAULT_RELAYS]
      | str s => simp [getRelays, DEFAULT_RELAYS]
      | obj f => simp [getRelays, DEFAULT_RELAYS]

/-- C10: `getRelays` never returns an empty relay list — a missing stored
value, unparsable JSON, a non-array value, or an empty stored array (for
example right after `removeRelay` deleted the last configured relay) all
fall back to the nine built-in `DEFAULT_RELAYS`; consequently the
Aggregator's `relays.length === 0` guard (the `'No relays configured'`
branch) is false for every store state read through `getRelays`. -/
theorem c10_getRelays_never_empty :
    (∀ stored, ¬((getRelays stored).length = 0))
  ∧ DEFAULT_RELAYS.length = 9
  ∧ getRelays none = DEFAULT_RELAYS.map JVal.str
  ∧ getRelays (some none) = DEFAULT_RELAYS.map JVal.str
  ∧ (∀ v : JVal, (∀ xs, v ≠ JVal.arr xs) →
      getRelays (some (some v)) = DEFAULT_RELAYS.map JVal.str)
  ∧ getRelays (some (some (JVal.arr []))) = DEFAULT_RELAYS.map JVal.str
  ∧ (∀ stored url,
      ¬((getRelays (some (some (JVal.arr (removeRelay url stored))))).length = 0)) := by
  refine ⟨?_, by decide, rfl, rfl, ?_, rfl, ?_⟩
  · intro stored h
    have := getRelays_pos stored
    omega
  · intro v hv
    cases v with
    | arr xs => exact absurd rfl (hv xs)
    | null => rfl
    | boolean b => rfl
    | num n => rfl
    | str s => rfl
    | obj f => rfl
  · intro stored url h
    have := getRelays_pos (some (some (JVal.arr (removeRelay url stored))))
    omega

/-- C10 witness: the non-array fallback instantiated at `null`, and the
empty-store read. -/
theorem c10_getRelays_never_empty_witness :
    getRelays (some (some JVal.null)) = DEFAULT_RELAYS.map JVal.str
  ∧ ¬((getRelays none).length = 0) :=
  ⟨c10_getRelays_never_empty.2.2.2.2.1 JVal.null (fun xs h => JVal.noConfusion h),
   c10_getRelays_never_empty.1 none⟩

/-! ## Sync Reconciler: C1 -/

theorem fetchEventFromRelay_some (stream : String → List NostrEvent)
    (eventId relayUrl : String) (e : NostrEvent)
    (h : fetchEventFromRelay stream eventId relayUrl = some e) :
    e.id = eventId ∧ e ∈ stream relayUrl := by
  unfold fetchEventFromRelay at h
  refine ⟨?_, List.mem_of_find?_eq_some h⟩
  have := List.find?_some h
  simpa using this

theorem fetchOriginalEvent_some (stream : String → List NostrEvent) (eventId : String) :
    ∀ (sources : List String) (e : NostrEvent),
      fetchOriginalEvent stream eventId sources = some e →
      e.id = eventId ∧ ∃ r ∈ sources, e ∈ stream r := by
  intro sources
  induction sources with
  | nil =>
      intro e h
      simp [fetchOriginalEvent] at h
  | cons r rest ih =>
      intro e h
      rw [fetchOriginalEvent] at h
      cases hf : fetchEventFromRelay stream eventId r with
      | some ev =>
          rw [hf] at h
          cases h
          obtain ⟨hid, hmem⟩ := fetchEventFromRelay_some stream eventId r e hf
          exact ⟨hid, r, List.mem_cons_self r rest, hmem⟩
      | none =>
          rw [hf] at h
          obtain ⟨hid, r', hr', hm⟩ := ih e h
          exact ⟨hid, r', List.mem_cons_of_mem r hr', hm⟩

/-- C1: for a non-empty set of missing relays, the repair fetches the
original signed record by its id from a relay in the secret's
relay-membership set and forwards that record, byte for byte, to each
missing relay: every `EVENT` frame sent carries a record with the secret's
own event id taken from a membership relay's store (so no new id, timestamp
or ciphertext is minted), every relay reported as newly synced received
exactly that record and acknowledged it, every target relay is reported
either as success or as failure, and when no source relay yields the
original record nothing at all is published and every target relay is
reported failed. -/
theorem c1_repair_fetch_and_forward
    (stream : String → List NostrEvent) (pub : String → NostrEvent → Bool)
    (secret : RelaySecret) (targetRelays : List String) (hne : targetRelays ≠ []) :
    (∀ p ∈ (republishToRelays stream pub secret targetRelays).sends,
       p.2.id = secret.eventId ∧ ∃ r ∈ secret.relays, p.2 ∈ stream r)
  ∧ (∀ r ∈ (republishToRelays stream pub secret targetRelays).success,
       ∃ e, (r, e) ∈ (republishToRelays stream pub secret targetRelays).sends ∧
         e.id = secret.eventId ∧ pub r e = true)
  ∧ (∀ r ∈ targetRelays,
       r ∈ (republishToRelays stream pub secret targetRelays).success ∨
       r ∈ (republishToRelays stream pub secret targetRelays).failed)
  ∧ (fetchOriginalEvent stream secret.eventId secret.relays = none →
       (republishToRelays stream pub secret targetRelays).sends = [] ∧
       (republishToRelays stream pub secret targetRelays).success = [] ∧
       (republishToRelays stream pub secret targetRelays).failed = targetRelays) := by
  unfold republishToRelays
  rw [if_neg hne]
  cases hf : fetchOriginalEvent stream secret.eventId secret.relays with
  | none =>
      refine ⟨?_, ?_, ?_, ?_⟩
      · intro p hp
        simp at hp
      · intro r hr
        simp at hr
      · intro r hr
        right
        exact hr
      · intro _
        exact ⟨rfl, rfl, rfl⟩
  | some ev =>
      obtain ⟨hid, hsrc⟩ := fetchOriginalEvent_some stream secret.eventId secret.relays ev hf
      refine ⟨?_, ?_, ?_, ?_⟩
      · intro p hp
        simp only [List.mem_map] at hp
        obtain ⟨r, hr, rfl⟩ := hp
        exact ⟨hid, hsrc⟩
      · intro r hr
        have h := List.mem_filter.mp hr
        exact ⟨ev, List.mem_map_of_mem _ h.1, hid, h.2⟩
      · intro r hr
        by_cases hp : pub r ev = true
        · left
          exact List.mem_filter.mpr ⟨hr, hp⟩
        · right
          refine List.mem_filter.mpr ⟨hr, ?_⟩
          simp [hp]
      · intro h
        simp at h

/-- A record delivered by relay `r1` for the syncs below. -/
def evW : NostrEvent :=
  { id := "e1", pubkey := "pk", created_at := 0, kind := 4,
    tags := [["p", "pk"]], content := ['A'], sig := "sg" }

/-- A secret known to live on relay `r1` only. -/
def secretW : RelaySecret :=
  { id := "e1", eventId := "e1", title := "t", encryptedContent := ['A'],
    encryptionVersion := 2, tags := [], keyId := "k", keyName := "kn",
    createdAt := 0, relays := ["r1"] }

/-- Relay stores for the sync witnesses: only `r1` holds `evW`. -/
def streamW : String → List NostrEvent := fun r => if r = "r1" then [evW] else []

/-- Every publish is acknowledged. -/
def pubW : String → NostrEvent → Bool := fun _ _ => true

/-- C1 witness: repairing `secretW` towards missing relay `r2`. -/
theorem c1_repair_fetch_and_forward_witness :
    (∀ p ∈ (republishToRelays streamW pubW secretW ["r2"]).sends,
       p.2.id = secretW.eventId ∧ ∃ r ∈ secretW.relays, p.2 ∈ streamW r)
  ∧ (∀ r ∈ (republishToRelays streamW pubW secretW ["r2"]).success,
       ∃ e, (r, e) ∈ (republishToRelays streamW pubW secretW ["r2"]).sends ∧
         e.id = secretW.eventId ∧ pubW r e = true)
  ∧ (∀ r ∈ ["r2"],
       r ∈ (republishToRelays streamW pubW secretW ["r2"]).success ∨
       r ∈ (republishToRelays streamW pubW secretW ["r2"]).failed)
  ∧ (fetchOriginalEvent streamW secretW.eventId secretW.relays = none →
       (republishToRelays streamW pubW secretW ["r2"]).sends = [] ∧
       (republishToRelays streamW pubW secretW ["r2"]).success = [] ∧
       (republishToRelays streamW pubW secretW ["r2"]).failed = ["r2"]) :=
  c1_repair_fetch_and_forward streamW pubW secretW ["r2"] (by decide)

/-! ## New-write schemes: C4 -/

/-- C4 counterexample: the offline-queue retry path publishes through
`sendDM`, whose event content is NIP-04 output — it contains the `?iv=`
separator and is classified as scheme v1, not v2, already on a concrete
queued payload. -/
theorem c4_counterexample :
    detectEncryptionVersion (sendDMEventContent idCipher [] (List.replicate 16 0) []) = 1
  ∧ hasIvSep (sendDMEventContent idCipher [] (List.replicate 16 0) []) = true
  ∧ (1 : Nat) ≠ 2 := by
  refine ⟨by decide, by decide, by decide⟩

/-- C4 (amended): the save path (`saveSecretToRelays`) encrypts its payload
with scheme v2 — its event content is NIP-44 output, classified v2, and the
payload version it writes is 2; the current reconciler republish path
encrypts nothing, forwarding the fetched original record unchanged; but the
offline-queue retry path publishes through `sendDM`, whose event content is
encrypted with scheme v1 (NIP-04). -/
theorem c4_new_write_schemes :
    (∀ (P : NIP44Prims) (convKey nonce payload : List Byte),
        detectEncryptionVersion (saveSecretEventContent P convKey nonce payload) = 2)
  ∧ saveSecretPayloadVersion = 2
  ∧ (∀ (C : BlockCipher) (sharedKey iv content : List Byte),
        detectEncryptionVersion (sendDMEventContent C sharedKey iv content) = 1)
  ∧ (∀ (stream : String → List NostrEvent) (pub : String → NostrEvent → Bool)
        (secret : RelaySecret) (targets : List String) (ev : NostrEvent),
        fetchOriginalEvent stream secret.eventId secret.relays = some ev →
        ∀ p ∈ (republishToRelays stream pub secret targets).sends, p.2 = ev) := by
  refine ⟨?_, rfl, ?_, ?_⟩
  · intro P convKey nonce payload
    unfold saveSecretEventContent encryptNIP44 nip44Payload
    exact detect_v2_payload _
  · intro C sharedKey iv content
    exact detect_nip04_is_v1 C sharedKey iv content
  · intro stream pub secret targets ev hf p hp
    unfold republishToRelays at hp
    by_cases ht : targets = []
    · rw [if_pos ht] at hp
      simp at hp
    · rw [if_neg ht, hf] at hp
      simp only [List.mem_map] at hp
      obtain ⟨r, hr, rfl⟩ := hp
      rfl

/-- C4 witness: the amended statement exercised on closed inputs, including
a successful fetch-and-forward whose only send is the original record. -/
theorem c4_new_write_schemes_witness :
    detectEncryptionVersion (saveSecretEventContent zeroPrims [] (List.replicate 32 0) []) = 2
  ∧ detectEncryptionVersion (sendDMEventContent idCipher [] (List.replicate 16 0) [1]) = 1
  ∧ (∀ p ∈ (republishToRelays streamW pubW secretW ["r2"]).sends, p.2 = evW) :=
  ⟨c4_new_write_schemes.1 zeroPrims [] (List.replicate 32 0) [],
   c4_new_write_schemes.2.2.1 idCipher [] (List.replicate 16 0) [1],
   c4_new_write_schemes.2.2.2 streamW pubW secretW ["r2"] evW (by decide)⟩

/-! ## Offline queue: processing-loop lemmas -/

theorem processStep_removed_grows (send : QueuedSecret → Bool) (now : Nat)
    (acc : ProcessOutcome) (a : QueuedSecret) (j : QueuedSecret)
    (h : j ∈ acc.removed) : j ∈ (processStep send now acc a).removed := by
  unfold processStep
  by_cases hs : send a = true
  · rw [if_pos hs]
    exact List.mem_append_left _ h
  · rw [if_neg hs]
    exact h

theorem fold_removed_grows (send : QueuedSecret → Bool) (now : Nat) :
    ∀ (L : List QueuedSecret) (acc : ProcessOutcome) (j : QueuedSecret),
      j ∈ acc.removed → j ∈ (L.foldl (processStep send now) acc).removed := by
  intro L
  induction L with
  | nil => intro acc j h; exact h
  | cons a L' ih =>
      intro acc j h
      exact ih _ j (processStep_removed_grows send now acc a j h)

theorem fold_removed_from (send : QueuedSecret → Bool) (now : Nat) :
    ∀ (L : List QueuedSecret) (acc : ProcessOutcome) (j : QueuedSecret),
      j ∈ (L.foldl (processStep send now) acc).removed → j ∈ acc.removed ∨ j ∈ L := by
  intro L
  induction L with
  | nil => intro acc j h; exact Or.inl h
  | cons a L' ih =>
      intro acc j h
      rcases ih _ j h with h' | h'
      · unfold processStep at h'
        by_cases hs : send a = true
        · rw [if_pos hs] at h'
          rcases List.mem_append.mp h' with h'' | h''
          · exact Or.inl h''
          · simp only [List.mem_singleton] at h''
            exact Or.inr (h'' ▸ List.mem_cons_self a L')
        · rw [if_neg hs] at h'
          exact Or.inl h'
      · exact Or.inr (List.mem_cons_of_mem a h')

theorem fold_success_removed (send : QueuedSecret → Bool) (now : Nat) :
    ∀ (L : List QueuedSecret) (acc : ProcessOutcome) (item : QueuedSecret),
      item ∈ L → send item = true →
      item ∈ (L.foldl (processStep send now) acc).removed := by
  intro L
  induction L with
  | nil => intro acc item h; exact absurd h (List.not_mem_nil item)
  | cons a L' ih =>
      intro acc item hmem hs
      rcases List.mem_cons.mp hmem with h | h
      · subst h
        refine fold_removed_grows send now L' _ item ?_
        unfold processStep
        rw [if_pos hs]
        exact List.mem_append_right _ (List.mem_singleton.mpr rfl)
      · exact ih _ item h hs

theorem fold_absent_id (send : QueuedSecret → Bool) (now : Nat) (x : String) :
    ∀ (L : List QueuedSecret) (acc : ProcessOutcome),
      (∀ j ∈ acc.pending, j.id ≠ x) →
      ∀ j ∈ (L.foldl (processStep send now) acc).pending, j.id ≠ x := by
  intro L
  induction L with
  | nil => intro acc h; exact h
  | cons a L' ih =>
      intro acc h
      refine ih _ ?_
      intro j hj
      unfold processStep at hj
      by_cases hs : send a = true
      · rw [if_pos hs] at hj
        exact h j (List.mem_of_mem_filter hj)
      · rw [if_neg hs] at hj
        simp only [bumpRetry, List.mem_map] at hj
        obtain ⟨j', hj', rfl⟩ := hj
        by_cases hid : j'.id = a.id
        · rw [if_pos hid]
          exact h j' hj'
        · rw [if_neg hid]
          exact h j' hj'

theorem fold_success_absent (send : QueuedSecret → Bool) (now : Nat) :
    ∀ (L : List QueuedSecret) (acc : ProcessOutcome) (item : QueuedSecret),
      item ∈ L → send item = true →
      ∀ j ∈ (L.foldl (processStep send now) acc).pending, j.id ≠ item.id := by
  intro L
  induction L with
  | nil => intro acc item h; exact absurd h (List.not_mem_nil item)
  | cons a L' ih =>
      intro acc item hmem hs
      rcases List.mem_cons.mp hmem with h | h
      · subst h
        refine fold_absent_id send now item.id L' _ ?_
        intro j hj
        unfold processStep at hj
        rw [if_pos hs] at hj
        have := (List.mem_filter.mp hj).2
        simpa using this
      · exact ih _ item h hs

theorem fold_untouched (send : QueuedSecret → Bool) (now : Nat) :
    ∀ (L : List QueuedSecret) (acc : ProcessOutcome) (item : QueuedSecret),
      (∀ it ∈ L, it.id ≠ item.id) → item ∈ acc.pending →
      item ∈ (L.foldl (processStep send now) acc).pending := by
  intro L
  induction L with
  | nil => intro acc item _ h; exact h
  | cons a L' ih =>
      intro acc item hids hmem
      have ha : a.id ≠ item.id := hids a (List.mem_cons_self a L')
      refine ih _ item (fun it hit => hids it (List.mem_cons_of_mem a hit)) ?_
      unfold processStep
      by_cases hs : send a = true
      · rw [if_pos hs]
        refine List.mem_filter.mpr ⟨hmem, ?_⟩
        simp
        intro h
        exact ha h.symm
      · rw [if_neg hs]
        show item ∈ bumpRetry now a.id acc.pending
        unfold bumpRetry
        exact List.mem_map.mpr ⟨item, hmem, by simp [Ne.symm ha]⟩

/-- C5: a queued item whose retry attempt succeeds is removed from the queue
(no entry with its id remains) and its retry count is not incremented — the
removed entry is one of the original queue entries, field for field; and
`retryOne` behaves the same on its single item: a confirmed send removes the
item and nothing else changes. -/
theorem c5_success_removes_without_increment
    (send : QueuedSecret → Bool) (now : Nat) (pending : List QueuedSecret) :
    (∀ item ∈ pending.filter (retryEligible now), send item = true →
        item ∈ (processQueue send now true false pending).removed
        ∧ ∀ j ∈ (processQueue send now true false pending).pending, j.id ≠ item.id)
  ∧ (∀ j ∈ (processQueue send now true false pending).removed, j ∈ pending)
  ∧ (∀ (id : String) (item : QueuedSecret),
        pending.find? (fun q => q.id = id) = some item →
        truthyS item.key.privateKey = true → send item = true →
        retryOne send id pending = removeFromQueue id pending
        ∧ ∀ j ∈ retryOne send id pending, j.id ≠ id) := by
  by_cases hnil : pending = []
  · subst hnil
    refine ⟨?_, ?_, ?_⟩
    · intro item h
      simp at h
    · intro j h
      simp [processQueue] at h
    · intro id item h
      simp at h
  · have hq : processQueue send now true false pending =
        (pending.filter (retryEligible now)).foldl (processStep send now) ⟨pending, []⟩ := by
      unfold processQueue
      rw [if_neg (by simp), if_neg hnil, if_neg (by simp)]
    refine ⟨?_, ?_, ?_⟩
    · intro item hmem hs
      rw [hq]
      exact ⟨fold_success_removed send now _ _ item hmem hs,
             fold_success_absent send now _ _ item hmem hs⟩
    · intro j hj
      rw [hq] at hj
      rcases fold_removed_from send now _ _ j hj with h | h
      · simp at h
      · exact List.mem_of_mem_filter h
    · intro id item hfind htr hs
      have heq : retryOne send id pending = removeFromQueue id pending := by
        unfold retryOne
        rw [hfind]
        simp [htr, hs]
      refine ⟨heq, ?_⟩
      intro j hj
      rw [heq] at hj
      have := (List.mem_filter.mp hj).2
      simpa using this

/-- C5 witness: a single eligible item, a succeeding sender. -/
theorem c5_success_removes_witness :
    (qItemW ∈ (processQueue (fun _ => true) 10000 true false [qItemW]).removed
      ∧ ∀ j ∈ (processQueue (fun _ => true) 10000 true false [qItemW]).pending,
          j.id ≠ qItemW.id)
  ∧ retryOne (fun _ => true) "q1" [qItemW] = removeFromQueue "q1" [qItemW] :=
  ⟨(c5_success_removes_without_increment (fun _ => true) 10000 [qItemW]).1 qItemW
      (by decide) rfl,
   ((c5_success_removes_without_increment (fun _ => true) 10000 [qItemW]).2.2 "q1" qItemW
      (by decide) (by decide) rfl).1⟩

/-! ## Offline queue: hydration (C6) -/

/-- C6 counterexample: an item whose key is absent from the supplied list
and whose stored key has no private material is destroyed by
`hydrateQueueWithKeys` — the set of pending item ids is not preserved. -/
theorem c6_hydrate_counterexample :
    hydrateQueueWithKeys [] [qItemStripped] = []
  ∧ (hydrateQueueWithKeys [] [qItemStripped]).map (fun i => i.id) ≠
      [qItemStripped].map (fun i => i.id) := by
  refine ⟨by decide, by decide⟩

/-- C6 (amended): `hydrateQueueWithKeys` re-attaches the full key for every
item whose key id appears in the supplied list, changing nothing else on the
item (id, payload, retry count); every surviving entry is the hydrated form
of an original entry and carries private material; items that end up with
private material are all kept — but an item left without private material
(key absent from the list and no private material already attached) is
removed from the queue, not merely excluded from retry eligibility. -/
theorem c6_hydrate_preserves_only_hydratable (keys : List QKey)
    (pending : List QueuedSecret) :
    (∀ item ∈ pending, (hydrateItem keys item).id = item.id
        ∧ (hydrateItem keys item).content = item.content
        ∧ (hydrateItem keys item).retryCount = item.retryCount)
  ∧ (∀ j ∈ hydrateQueueWithKeys keys pending,
        truthyS j.key.privateKey = true ∧ ∃ item ∈ pending, j = hydrateItem keys item)
  ∧ (∀ item ∈ pending, truthyS (hydrateItem keys item).key.privateKey = true →
        hydrateItem keys item ∈ hydrateQueueWithKeys keys pending)
  ∧ (∀ item ∈ pending, truthyS (hydrateItem keys item).key.privateKey = false →
        hydrateItem keys item ∉ hydrateQueueWithKeys keys pending) := by
  refine ⟨?_, ?_, ?_, ?_⟩
  · intro item _
    unfold hydrateItem
    cases keys.reverse.find? (fun k => k.id = item.key.id) with
    | none => exact ⟨rfl, rfl, rfl⟩
    | some fullKey => exact ⟨rfl, rfl, rfl⟩
  · intro j hj
    unfold hydrateQueueWithKeys at hj
    have h := List.mem_filter.mp hj
    obtain ⟨item, hitem, rfl⟩ := List.mem_map.mp h.1
    exact ⟨h.2, item, hitem, rfl⟩
  · intro item hitem htr
    unfold hydrateQueueWithKeys
    exact List.mem_filter.mpr ⟨List.mem_map_of_mem _ hitem, htr⟩
  · intro item hitem htr hmem
    unfold hydrateQueueWithKeys at hmem
    have h := (List.mem_filter.mp hmem).2
    rw [htr] at h
    cases h

/-- C6 amended-theorem witness: a hydratable item is kept in hydrated form;
the un-hydratable one is dropped. -/
theorem c6_hydrate_preserves_witness :
    hydrateItem [qkFull] qItemStripped ∈ hydrateQueueWithKeys [qkFull] [qItemStripped]
  ∧ hydrateItem [] qItemStripped ∉ hydrateQueueWithKeys [] [qItemStripped] :=
  ⟨(c6_hydrate_preserves_only_hydratable [qkFull] [qItemStripped]).2.2.1 qItemStripped
      (by decide) (by decide),
   (c6_hydrate_preserves_only_hydratable [] [qItemStripped]).2.2.2 qItemStripped
      (by decide) (by decide)⟩

/-! ## Offline queue: backoff schedule and exhaustion (C7) -/

/-- C7: the retry delay schedule is monotone (each wait is at least the
previous one), follows exactly 5s, 15s, 30s, 60s and caps at 120s; an item
whose retry count has reached `MAX_RETRIES` is never selected again —
`processQueue`'s eligibility filter rejects it, the item survives a whole
`processQueue` pass untouched, and `scheduleRetry`'s wait computation
ignores it entirely. -/
theorem c7_backoff_monotone_and_exhaustion :
    (∀ n : Nat, delayFor n ≤ delayFor (n + 1))
  ∧ (delayFor 0 = 5000 ∧ delayFor 1 = 15000 ∧ delayFor 2 = 30000 ∧ delayFor 3 = 60000
      ∧ ∀ n, 4 ≤ n → delayFor n = 120000)
  ∧ (∀ (now : Nat) (item : QueuedSecret), MAX_RETRIES ≤ item.retryCount →
      retryEligible now item = false)
  ∧ (∀ (send : QueuedSecret → Bool) (now : Nat) (pending : List QueuedSecret)
        (item : QueuedSecret), MAX_RETRIES ≤ item.retryCount →
      item ∈ pending → (pending.map (fun q => q.id)).Nodup →
      item ∈ (processQueue send now true false pending).pending)
  ∧ (∀ (now : Nat) (item : QueuedSecret) (l1 l2 : List QueuedSecret),
      MAX_RETRIES ≤ item.retryCount →
      scheduleWaitMs now (l1 ++ item :: l2) = scheduleWaitMs now (l1 ++ l2)) := by
  have hdelay : ∀ n, 4 ≤ n → delayFor n = 120000 := by
    intro n hn
    have h1 : min n 4 = 4 := by omega
    simp [delayFor, RETRY_DELAYS, h1]
  have helig : ∀ (now : Nat) (item : QueuedSecret), MAX_RETRIES ≤ item.retryCount →
      retryEligible now item = false := by
    intro now item h
    simp [retryEligible, h]
  refine ⟨?_, ⟨by decide, by decide, by decide, by decide, hdelay⟩, helig, ?_, ?_⟩
  · intro n
    match n with
    | 0 => decide
    | 1 => decide
    | 2 => decide
    | 3 => decide
    | m + 4 =>
        rw [hdelay (m + 4) (by omega), hdelay (m + 5) (by omega)]
  · intro send now pending item hmax hmem hnd
    have hnil : pending ≠ [] := by
      intro h
      rw [h] at hmem
      exact List.not_mem_nil item hmem
    have hq : processQueue send now true false pending =
        (pending.filter (retryEligible now)).foldl (processStep send now) ⟨pending, []⟩ := by
      unfold processQueue
      rw [if_neg (by simp), if_neg hnil, if_neg (by simp)]
    rw [hq]
    refine fold_untouched send now _ _ item ?_ hmem
    intro it hit hid
    have hit' := List.mem_of_mem_filter hit
    have helig' := (List.mem_filter.mp hit).2
    have : it = item := by
      have hinj := List.inj_on_of_nodup_map hnd
      exact hinj hit' hmem hid
    rw [this, helig now item hmax] at helig'
    cases helig'
  · intro now item l1 l2 hmax
    unfold scheduleWaitMs
    rw [List.foldl_append, List.foldl_append]
    simp only [List.foldl_cons]
    rw [if_pos hmax]

/-- C7 witness: the capped delay at `n = 7`, and an exhausted item that is
rejected by the filter, survives a full pass, and is skipped by the wait
computation. -/
theorem c7_backoff_witness :
    delayFor 7 = 120000
  ∧ retryEligible 0 qItemX = false
  ∧ qItemX ∈ (processQueue (fun _ => true) 10000 true false [qItemX]).pending
  ∧ scheduleWaitMs 0 ([] ++ qItemX :: []) = scheduleWaitMs 0 ([] ++ []) :=
  ⟨c7_backoff_monotone_and_exhaustion.2.1.2.2.2.2 7 (by decide),
   c7_backoff_monotone_and_exhaustion.2.2.1 0 qItemX (by decide),
   c7_backoff_monotone_and_exhaustion.2.2.2.1 (fun _ => true) 10000 [qItemX] qItemX
      (by decide) (by decide) (by decide),
   c7_backoff_monotone_and_exhaustion.2.2.2.2 0 qItemX [] [] (by decide)⟩

/-! ## Secret Aggregator: C2 -/

theorem relaysOf_def (x : String) (st : List RelaySecret) :
    relaysOf x st = ((st.find? (fun e => e.id = x)).map RelaySecret.relays).getD [] := by
  unfold relaysOf
  cases st.find? (fun e => e.id = x) <;> rfl

theorem id_of_relayUpdate (r : String) (sec e : RelaySecret) :
    (if e.id = sec.id ∧ ¬ r ∈ e.relays then { e with relays := e.relays ++ [r] }
     else e).id = e.id := by
  split <;> rfl

theorem idsOf_relayUpdate (r : String) (sec : RelaySecret) (st : List RelaySecret) :
    idsOf (st.map (fun e =>
      if e.id = sec.id ∧ ¬ r ∈ e.relays then { e with relays := e.relays ++ [r] }
      else e)) = idsOf st := by
  induction st with
  | nil => rfl
  | cons a t ih =>
      simp only [idsOf, List.map_cons] at *
      rw [id_of_relayUpdate, ih]

theorem find?_relayUpdate (r : String) (sec : RelaySecret) (x : String)
    (st : List RelaySecret) :
    (st.map (fun e =>
        if e.id = sec.id ∧ ¬ r ∈ e.relays then { e with relays := e.relays ++ [r] }
        else e)).find? (fun e => e.id = x) =
      (st.find? (fun e => e.id = x)).map (fun e =>
        if e.id = sec.id ∧ ¬ r ∈ e.relays then { e with relays := e.relays ++ [r] }
        else e) := by
  rw [List.find?_map]
  have hpred : ((fun e : RelaySecret => decide (e.id = x)) ∘ (fun e =>
      if e.id = sec.id ∧ ¬ r ∈ e.relays then { e with relays := e.relays ++ [r] }
      else e)) = (fun e : RelaySecret => decide (e.id = x)) := by
    funext e
    simp only [Function.comp_apply]
    rw [id_of_relayUpdate]
  rw [hpred]

theorem relaysOf_mergeOne (r : String) (st : List RelaySecret) (sec : RelaySecret)
    (x : String) :
    relaysOf x (mergeOne r st sec) =
      if sec.id = x then
        (if r ∈ relaysOf x st then relaysOf x st else relaysOf x st ++ [r])
      else relaysOf x st := by
  unfold mergeOne
  by_cases hany : st.any (fun e => e.id = sec.id) = true
  · rw [if_pos hany]
    rw [relaysOf_def, find?_relayUpdate]
    cases hfind : st.find? (fun e => e.id = x) with
    | none =>
        have hst : relaysOf x st = [] := by
          rw [relaysOf_def, hfind]
          rfl
        by_cases hx : sec.id = x
        · exfalso
          obtain ⟨e, he, hpe⟩ := List.any_eq_true.mp hany
          have hnone := List.find?_eq_none.mp hfind e he
          simp only [decide_eq_true_eq] at hpe hnone
          exact hnone (by rw [hpe, hx])
        · rw [if_neg hx, hst]
          rfl
    | some e =>
        have hex : e.id = x := by simpa using List.find?_some hfind
        have hst : relaysOf x st = e.relays := by
          rw [relaysOf_def, hfind]
          rfl
        simp only [Option.map_some', Option.getD_some]
        by_cases hx : sec.id = x
        · rw [if_pos hx, hst]
          by_cases hr : r ∈ e.relays
          · rw [if_pos hr, if_neg (fun h => h.2 hr)]
          · rw [if_neg hr, if_pos (⟨by rw [hex, hx], hr⟩ :
              e.id = sec.id ∧ ¬ r ∈ e.relays)]
        · rw [if_neg hx, hst,
            if_neg (fun h => hx (by rw [← h.1, hex] : sec.id = x))]
  · rw [if_neg hany]
    by_cases hx : sec.id = x
    · have hnone : st.find? (fun e => e.id = x) = none := by
        refine List.find?_eq_none.mpr ?_
        intro e he
        have := List.any_eq_false.mp (Bool.eq_false_iff.mpr hany) e he
        simp only [decide_eq_true_eq] at this ⊢
        intro hex
        exact this (by rw [hex, hx])
      have hst : relaysOf x st = [] := by
        rw [relaysOf_def, hnone]
        rfl
      have hfind1 : ([{ sec with relays := [r] }] : List RelaySecret).find?
          (fun e => e.id = x) = some { sec with relays := [r] } := by
        simp [List.find?, hx]
      rw [relaysOf_def, List.find?_append, hnone, hfind1, if_pos hx, hst]
      simp
    · have hfind1 : ([{ sec with relays := [r] }] : List RelaySecret).find?
          (fun e => e.id = x) = none := by
        simp [List.find?, hx]
      rw [relaysOf_def, List.find?_append, hfind1, if_neg hx, relaysOf_def]
      cases st.find? (fun e => e.id = x) <;> rfl

theorem idsOf_mergeOne_nodup (r : String) (st : List RelaySecret) (sec : RelaySecret)
    (h : (idsOf st).Nodup) : (idsOf (mergeOne r st sec)).Nodup := by
  unfold mergeOne
  by_cases hany : st.any (fun e => e.id = sec.id) = true
  · rw [if_pos hany, idsOf_relayUpdate]
    exact h
  · rw [if_neg hany]
    have hids : idsOf (st ++ [{ sec with relays := [r] }]) = idsOf st ++ [sec.id] := by
      unfold idsOf
      rw [List.map_append]
      rfl
    rw [hids]
    rw [List.nodup_append]
    refine ⟨h, List.nodup_singleton _, ?_⟩
    intro b hb hbs
    simp only [List.mem_singleton] at hbs
    obtain ⟨e, he, rfl⟩ := List.mem_map.mp hb
    have := List.any_eq_false.mp (Bool.eq_false_iff.mpr hany) e he
    simp only [decide_eq_true_eq] at this
    exact this hbs

theorem mergeAndNotify_effect (r : String) :
    ∀ (news : List RelaySecret) (st : List RelaySecret), (idsOf st).Nodup →
      (idsOf (mergeAndNotify r news st)).Nodup
      ∧ ∀ x, relaysOf x (mergeAndNotify r news st) =
          if news.any (fun s => s.id = x) then
            (if r ∈ relaysOf x st then relaysOf x st else relaysOf x st ++ [r])
          else relaysOf x st := by
  intro news
  induction news with
  | nil =>
      intro st h
      refine ⟨h, ?_⟩
      intro x
      simp [mergeAndNotify]
  | cons s news' ih =>
      intro st h
      have hnd' := idsOf_mergeOne_nodup r st s h
      have hih := ih (mergeOne r st s) hnd'
      have hfold : mergeAndNotify r (s :: news') st =
          mergeAndNotify r news' (mergeOne r st s) := rfl
      rw [hfold]
      refine ⟨hih.1, ?_⟩
      intro x
      have hx := hih.2 x
      have hstep := relaysOf_mergeOne r st s x
      by_cases hsx : s.id = x
      · have hany : ((s :: news').any (fun e => e.id = x)) = true := by
          simp [hsx]
        rw [hx, hany, if_pos rfl]
        have hmo : relaysOf x (mergeOne r st s) =
            if r ∈ relaysOf x st then relaysOf x st else relaysOf x st ++ [r] := by
          rw [hstep, if_pos hsx]
        have hrin : r ∈ relaysOf x (mergeOne r st s) := by
          rw [hmo]
          by_cases hr : r ∈ relaysOf x st
          · rw [if_pos hr]; exact hr
          · rw [if_neg hr]
            exact List.mem_append_right _ (List.mem_singleton.mpr rfl)
        by_cases hany' : news'.any (fun e => e.id = x) = true
        · rw [if_pos hany', if_pos hrin, hmo]
        · rw [if_neg (by simp [hany']), hmo]
      · have hanyEq : ((s :: news').any (fun e => e.id = x)) =
            (news'.any (fun e => e.id = x)) := by
          simp [hsx]
        have hmo : relaysOf x (mergeOne r st s) = relaysOf x st := by
          rw [hstep, if_neg hsx]
        rw [hx, hmo, hanyEq]

theorem deliverers_cons (x r : String) (ss : List RelaySecret)
    (rest : List (String × List RelaySecret)) :
    deliverers x ((r, ss) :: rest) =
      if ss.any (fun s => s.id = x) then r :: deliverers x rest
      else deliverers x rest := by
  unfold deliverers
  rw [List.filter_cons]
  by_cases h : ss.any (fun s => s.id = x) = true
  · simp [h]
  · simp [h]

theorem aggregateSecrets_effect :
    ∀ (arrivals : List (String × List RelaySecret)) (st : List RelaySecret),
      (idsOf st).Nodup →
      (arrivals.map Prod.fst).Nodup →
      (∀ a ∈ arrivals, ∀ x, a.1 ∉ relaysOf x st) →
      (idsOf (arrivals.foldl (fun st a => mergeAndNotify a.1 a.2 st) st)).Nodup
      ∧ ∀ x, relaysOf x (arrivals.foldl (fun st a => mergeAndNotify a.1 a.2 st) st) =
          relaysOf x st ++ deliverers x arrivals := by
  intro arrivals
  induction arrivals with
  | nil =>
      intro st h _ _
      refine ⟨h, ?_⟩
      intro x
      simp [deliverers]
  | cons a rest ih =>
      intro st h hnd hfresh
      obtain ⟨r, ss⟩ := a
      have hM := mergeAndNotify_effect r ss st h
      have hndrest : (rest.map Prod.fst).Nodup := (List.nodup_cons.mp hnd).2
      have hrnotin : r ∉ rest.map Prod.fst := (List.nodup_cons.mp hnd).1
      have hfresh' : ∀ b ∈ rest, ∀ x, b.1 ∉ relaysOf x (mergeAndNotify r ss st) := by
        intro b hb x hmem
        have hbneq : b.1 ≠ r := by
          intro heq
          exact hrnotin (heq ▸ List.mem_map_of_mem Prod.fst hb)
        have hbfresh := hfresh b (List.mem_cons_of_mem _ hb) x
        rw [hM.2 x] at hmem
        by_cases hany : ss.any (fun e => e.id = x) = true
        · rw [hany, if_pos rfl] at hmem
          by_cases hr : r ∈ relaysOf x st
          · rw [if_pos hr] at hmem
            exact hbfresh hmem
          · rw [if_neg hr] at hmem
            rcases List.mem_append.mp hmem with hmem | hmem
            · exact hbfresh hmem
            · exact hbneq (List.mem_singleton.mp hmem)
        · rw [if_neg (by simp [hany])] at hmem
          exact hbfresh hmem
      have hA := ih (mergeAndNotify r ss st) hM.1 hndrest hfresh'
      have hfold : ((r, ss) :: rest).foldl (fun st a => mergeAndNotify a.1 a.2 st) st =
          rest.foldl (fun st a => mergeAndNotify a.1 a.2 st) (mergeAndNotify r ss st) := rfl
      rw [hfold]
      refine ⟨hA.1, ?_⟩
      intro x
      rw [hA.2 x, hM.2 x, deliverers_cons]
      by_cases hany : ss.any (fun e => e.id = x) = true
      · rw [hany, if_pos rfl, if_pos rfl]
        have hr : r ∉ relaysOf x st := hfresh (r, ss) (List.mem_cons_self _ _) x
        rw [if_neg hr, List.append_assoc]
        rfl
      · rw [if_neg (by simp [hany]), if_neg (by simp [hany])]

theorem filter_id_singleton (x : String) (e : RelaySecret) (hex : e.id = x) :
    ∀ st : List RelaySecret, (idsOf st).Nodup → e ∈ st →
      (st.filter (fun s => s.id = x)).length = 1 := by
  intro st
  induction st with
  | nil =>
      intro _ he
      cases he
  | cons a t ih =>
      intro hnd he
      have hnd' : (idsOf t).Nodup := (List.nodup_cons.mp hnd).2
      have hna : a.id ∉ idsOf t := (List.nodup_cons.mp hnd).1
      rw [List.filter_cons]
      by_cases hax : a.id = x
      · rw [if_pos (by simp [hax])]
        have hempty : t.filter (fun s => decide (s.id = x)) = [] := by
          rw [List.filter_eq_nil_iff]
          intro s hs
          simp only [decide_eq_true_eq]
          intro hsx
          apply hna
          show a.id ∈ List.map (fun q => q.id) t
          rw [hax, ← hsx]
          exact List.mem_map_of_mem (fun q => q.id) hs
        simp [hempty]
      · rw [if_neg (by simp [hax])]
        have he' : e ∈ t := by
          rcases List.mem_cons.mp he with h | h
          · exact absurd (h ▸ hex) hax
          · exact h
        exact ih hnd' he'

/-- C2: delivering the same record id from any number of distinct relays, in
any completion order and possibly several times per relay, yields exactly
one aggregated entry for that id, whose relay-membership list is exactly the
(duplicate-free) list of relays that delivered it — the first observation
creates the entry with a singleton membership and every repeat observation
only unions the relay in. -/
theorem c2_idempotent_aggregation (arrivals : List (String × List RelaySecret))
    (hnd : (arrivals.map Prod.fst).Nodup) (x : String)
    (hk : deliverers x arrivals ≠ []) :
    ((aggregateSecrets arrivals).filter (fun s => s.id = x)).length = 1
  ∧ relaysOf x (aggregateSecrets arrivals) = deliverers x arrivals
  ∧ (relaysOf x (aggregateSecrets arrivals)).Nodup
  ∧ (relaysOf x (aggregateSecrets arrivals)).length = (deliverers x arrivals).length := by
  have hA := aggregateSecrets_effect arrivals []
    (by simp [idsOf]) hnd (by
      intro a _ x'
      simp [relaysOf])
  have hrel : relaysOf x (aggregateSecrets arrivals) = deliverers x arrivals := by
    have h := hA.2 x
    unfold aggregateSecrets
    rw [h]
    simp [relaysOf]
  have hsub : List.Sublist (deliverers x arrivals) (arrivals.map Prod.fst) :=
    (List.filter_sublist arrivals).map Prod.fst
  have hdnodup : (deliverers x arrivals).Nodup := hnd.sublist hsub
  refine ⟨?_, hrel, by rw [hrel]; exact hdnodup, by rw [hrel]⟩
  cases hfind : (aggregateSecrets arrivals).find? (fun e => e.id = x) with
  | none =>
      exfalso
      apply hk
      rw [← hrel, relaysOf_def, hfind]
      rfl
  | some e =>
      have hex : e.id = x := by
        have := List.find?_some hfind
        simpa using this
      exact filter_id_singleton x e hex (aggregateSecrets arrivals) hA.1
        (List.mem_of_find?_eq_some hfind)

/-- C2 witness: the same record id delivered by two distinct relays settles
to one entry with both relays in its membership. -/
theorem c2_idempotent_aggregation_witness :
    ((aggregateSecrets arrivalsW).filter (fun s => s.id = "e1")).length = 1
  ∧ relaysOf "e1" (aggregateSecrets arrivalsW) = deliverers "e1" arrivalsW
  ∧ (relaysOf "e1" (aggregateSecrets arrivalsW)).Nodup
  ∧ (relaysOf "e1" (aggregateSecrets arrivalsW)).length =
      (deliverers "e1" arrivalsW).length :=
  c2_idempotent_aggregation arrivalsW (by decide) "e1" (by decide)

/-! ## Vault self-healing: C8 -/

theorem validateKey_truthy_id (k : NKey) (h : validateKey k = true) :
    truthyS k.id = true := by
  unfold validateKey at h
  simp only [Bool.and_eq_true] at h
  exact h.1.1.1.1.1

theorem healKeys_inv :
    ∀ (ks : List NKey) (acc : HealAcc),
      acc.seenKeyIds = acc.validKeys.map (fun k => k.id.getD "") →
      acc.seenKeyIds.Nodup →
      (∀ k ∈ acc.validKeys, validateKey k = true) →
      ((ks.foldl healKeysStep acc).seenKeyIds =
          (ks.foldl healKeysStep acc).validKeys.map (fun k => k.id.getD "")
        ∧ (ks.foldl healKeysStep acc).seenKeyIds.Nodup
        ∧ ∀ k ∈ (ks.foldl healKeysStep acc).validKeys, validateKey k = true) := by
  intro ks
  induction ks with
  | nil =>
      intro acc h1 h2 h3
      exact ⟨h1, h2, h3⟩
  | cons k ks' ih =>
      intro acc h1 h2 h3
      rw [List.foldl_cons]
      have hstep : (healKeysStep acc k).seenKeyIds =
            (healKeysStep acc k).validKeys.map (fun j => j.id.getD "")
          ∧ (healKeysStep acc k).seenKeyIds.Nodup
          ∧ ∀ j ∈ (healKeysStep acc k).validKeys, validateKey j = true := by
        unfold healKeysStep
        by_cases hdup : (truthyS k.id && decide ((k.id.getD "") ∈ acc.seenKeyIds)) = true
        · rw [if_pos hdup]
          exact ⟨h1, h2, h3⟩
        · rw [if_neg hdup]
          by_cases hval : validateKey k = true
          · rw [if_pos hval]
            refine ⟨?_, ?_, ?_⟩
            · show acc.seenKeyIds ++ [k.id.getD ""] =
                (acc.validKeys ++ [k]).map (fun j => j.id.getD "")
              rw [List.map_append, ← h1]
              rfl
            · have hnotin : (k.id.getD "") ∉ acc.seenKeyIds := by
                intro hmem
                apply hdup
                simp [validateKey_truthy_id k hval, hmem]
              show (acc.seenKeyIds ++ [k.id.getD ""]).Nodup
              rw [List.nodup_append]
              refine ⟨h2, List.nodup_singleton _, ?_⟩
              intro b hb hbs
              simp only [List.mem_singleton] at hbs
              exact hnotin (hbs ▸ hb)
            · intro j hj
              rcases List.mem_append.mp hj with hj | hj
              · exact h3 j hj
              · rw [List.mem_singleton.mp hj]
                exact hval
          · rw [if_neg hval]
            exact ⟨h1, h2, h3⟩
      exact ih _ hstep.1 hstep.2.1 hstep.2.2

theorem healKeys_all_valid :
    ∀ (ks : List NKey) (acc : HealAcc),
      (∀ k ∈ ks, validateKey k = true) →
      (ks.map (fun k => k.id.getD "")).Nodup →
      (∀ k ∈ ks, (k.id.getD "") ∉ acc.seenKeyIds) →
      ks.foldl healKeysStep acc =
        { validKeys := acc.validKeys ++ ks,
          seenKeyIds := acc.seenKeyIds ++ ks.map (fun k => k.id.getD ""),
          repairs := acc.repairs } := by
  intro ks
  induction ks with
  | nil =>
      intro acc _ _ _
      simp
  | cons k ks' ih =>
      intro acc hval hnd hnotin
      have hk := hval k (List.mem_cons_self k ks')
      have hkn := hnotin k (List.mem_cons_self k ks')
      have hstep : healKeysStep acc k =
          { validKeys := acc.validKeys ++ [k],
            seenKeyIds := acc.seenKeyIds ++ [k.id.getD ""],
            repairs := acc.repairs } := by
        unfold healKeysStep
        rw [if_neg (by simp [hkn]), if_pos hk]
      have hnd2 : (k.id.getD "") ∉ ks'.map (fun j => j.id.getD "")
          ∧ (ks'.map (fun j => j.id.getD "")).Nodup := by
        rw [List.map_cons, List.nodup_cons] at hnd
        exact hnd
      rw [List.foldl_cons, hstep, ih]
      · simp only [List.map_cons]
        refine congrArg₂ (fun a b => HealAcc.mk a b acc.repairs) ?_ ?_ <;>
          rw [List.append_assoc] <;> rfl
      · intro j hj
        exact hval j (List.mem_cons_of_mem k hj)
      · exact hnd2.2
      · intro j hj
        show (j.id.getD "") ∉ acc.seenKeyIds ++ [k.id.getD ""]
        intro hmem
        rcases List.mem_append.mp hmem with hm | hm
        · exact hnotin j (List.mem_cons_of_mem k hj) hm
        · simp only [List.mem_singleton] at hm
          exact hnd2.1 (hm ▸ List.mem_map_of_mem (fun q => q.id.getD "") hj)

theorem healKeys_extends :
    ∀ (ks : List NKey) (acc : HealAcc),
      ∃ S, (ks.foldl healKeysStep acc).validKeys = acc.validKeys ++ S
        ∧ List.Sublist S ks := by
  intro ks
  induction ks with
  | nil =>
      intro acc
      exact ⟨[], (List.append_nil _).symm, List.Sublist.refl []⟩
  | cons c ks' ih =>
      intro acc
      rw [List.foldl_cons]
      by_cases hdup : (truthyS c.id && decide ((c.id.getD "") ∈ acc.seenKeyIds)) = true
      · have hstep : healKeysStep acc c =
            { acc with repairs := acc.repairs ++ ["Removed duplicate key"] } := by
          unfold healKeysStep
          rw [if_pos hdup]
        rw [hstep]
        obtain ⟨S, hS, hsub⟩ :=
          ih { acc with repairs := acc.repairs ++ ["Removed duplicate key"] }
        exact ⟨S, hS, List.Sublist.cons c hsub⟩
      · by_cases hval : validateKey c = true
        · have hstep : healKeysStep acc c = { acc with
              validKeys := acc.validKeys ++ [c],
              seenKeyIds := acc.seenKeyIds ++ [c.id.getD ""] } := by
            unfold healKeysStep
            rw [if_neg hdup, if_pos hval]
          rw [hstep]
          obtain ⟨S, hS, hsub⟩ := ih { acc with
            validKeys := acc.validKeys ++ [c],
            seenKeyIds := acc.seenKeyIds ++ [c.id.getD ""] }
          refine ⟨c :: S, ?_, List.Sublist.cons₂ c hsub⟩
          rw [hS]
          show (acc.validKeys ++ [c]) ++ S = acc.validKeys ++ (c :: S)
          rw [List.append_assoc]
          rfl
        · have hstep : healKeysStep acc c =
              { acc with repairs := acc.repairs ++ ["Removed corrupted key"] } := by
            unfold healKeysStep
            rw [if_neg hdup, if_neg hval]
          rw [hstep]
          obtain ⟨S, hS, hsub⟩ :=
            ih { acc with repairs := acc.repairs ++ ["Removed corrupted key"] }
          exact ⟨S, hS, List.Sublist.cons c hsub⟩

theorem healKeys_seen_mono :
    ∀ (ks : List NKey) (acc : HealAcc) (x : String),
      x ∈ acc.seenKeyIds → x ∈ (ks.foldl healKeysStep acc).seenKeyIds := by
  intro ks
  induction ks with
  | nil =>
      intro acc x hx
      exact hx
  | cons c ks' ih =>
      intro acc x hx
      rw [List.foldl_cons]
      refine ih _ x ?_
      unfold healKeysStep
      by_cases hdup : (truthyS c.id && decide ((c.id.getD "") ∈ acc.seenKeyIds)) = true
      · rw [if_pos hdup]
        exact hx
      · rw [if_neg hdup]
        by_cases hval : validateKey c = true
        · rw [if_pos hval]
          show x ∈ acc.seenKeyIds ++ [c.id.getD ""]
          exact List.mem_append_left _ hx
        · rw [if_neg hval]
          exact hx

theorem healKeys_complete :
    ∀ (ks : List NKey) (acc : HealAcc) (j : NKey),
      j ∈ ks → validateKey j = true →
      (j.id.getD "") ∈ (ks.foldl healKeysStep acc).seenKeyIds := by
  intro ks
  induction ks with
  | nil =>
      intro acc j hj
      cases hj
  | cons c ks' ih =>
      intro acc j hj hv
      rw [List.foldl_cons]
      rcases List.mem_cons.mp hj with hj | hj
      · refine healKeys_seen_mono ks' _ _ ?_
        unfold healKeysStep
        by_cases hdup : (truthyS c.id && decide ((c.id.getD "") ∈ acc.seenKeyIds)) = true
        · rw [if_pos hdup]
          have hdup2 : truthyS c.id = true ∧ (c.id.getD "") ∈ acc.seenKeyIds := by
            simpa using hdup
          show (j.id.getD "") ∈ acc.seenKeyIds
          rw [hj]
          exact hdup2.2
        · rw [if_neg hdup, if_pos (by rw [← hj]; exact hv)]
          show (j.id.getD "") ∈ acc.seenKeyIds ++ [c.id.getD ""]
          rw [hj]
          exact List.mem_append_right _ (List.mem_singleton.mpr rfl)
      · exact ih _ j hj hv

theorem healKeys_first :
    ∀ (ks : List NKey) (acc : HealAcc),
      acc.seenKeyIds = acc.validKeys.map (fun k => k.id.getD "") →
      acc.seenKeyIds.Nodup →
      (∀ k ∈ acc.validKeys, validateKey k = true) →
      ∀ k ∈ (ks.foldl healKeysStep acc).validKeys, k ∉ acc.validKeys →
        ks.find? (fun j => validateKey j && ((j.id.getD "") == (k.id.getD ""))) = some k := by
  intro ks
  induction ks with
  | nil =>
      intro acc _ _ _ k hk hknotin
      exact absurd hk hknotin
  | cons c ks' ih =>
      intro acc h1 h2 h3 k hk hknotin
      rw [List.foldl_cons] at hk
      by_cases hdup : (truthyS c.id && decide ((c.id.getD "") ∈ acc.seenKeyIds)) = true
      · have hstep : healKeysStep acc c =
            { acc with repairs := acc.repairs ++ ["Removed duplicate key"] } := by
          unfold healKeysStep
          rw [if_pos hdup]
        rw [hstep] at hk
        have hrec := ih { acc with repairs := acc.repairs ++ ["Removed duplicate key"] }
          h1 h2 h3 k hk hknotin
        rw [List.find?_cons_of_neg ks' ?_]
        · exact hrec
        · intro hpc
          have hpc2 : validateKey c = true ∧ (c.id.getD "") = (k.id.getD "") := by
            simpa using hpc
          have hdup2 : truthyS c.id = true ∧ (c.id.getD "") ∈ acc.seenKeyIds := by
            simpa using hdup
          have hin := hdup2.2
          rw [h1] at hin
          obtain ⟨a, ha, hfa⟩ := List.mem_map.mp hin
          obtain ⟨S, hS, _⟩ := healKeys_extends ks'
            { acc with repairs := acc.repairs ++ ["Removed duplicate key"] }
          have hinv := healKeys_inv ks'
            { acc with repairs := acc.repairs ++ ["Removed duplicate key"] } h1 h2 h3
          have hndmap : ((ks'.foldl healKeysStep
              { acc with repairs := acc.repairs ++ ["Removed duplicate key"] }).validKeys.map
                (fun j => j.id.getD "")).Nodup := by
            have h := hinv.2.1
            rw [hinv.1] at h
            exact h
          have hamem : a ∈ (ks'.foldl healKeysStep
              { acc with repairs := acc.repairs ++ ["Removed duplicate key"] }).validKeys := by
            rw [hS]
            exact List.mem_append_left _ ha
          have hak : a = k :=
            List.inj_on_of_nodup_map hndmap hamem hk (by rw [hfa, hpc2.2])
          exact hknotin (hak ▸ ha)
      · by_cases hval : validateKey c = true
        · have hstep : healKeysStep acc c = { acc with
              validKeys := acc.validKeys ++ [c],
              seenKeyIds := acc.seenKeyIds ++ [c.id.getD ""] } := by
            unfold healKeysStep
            rw [if_neg hdup, if_pos hval]
          rw [hstep] at hk
          by_cases hkc : k = c
          · have hpc : ((fun j => validateKey j && ((j.id.getD "") == (k.id.getD ""))) c) = true := by
              rw [hkc]
              simp [hval]
            rw [List.find?_cons_of_pos ks' hpc, hkc]
          · have hknotin2 : k ∉ acc.validKeys ++ [c] := by
              intro hm
              rcases List.mem_append.mp hm with hm | hm
              · exact hknotin hm
              · exact hkc (List.mem_singleton.mp hm)
            have h1x : (acc.seenKeyIds ++ [c.id.getD ""]) =
                (acc.validKeys ++ [c]).map (fun j => j.id.getD "") := by
              rw [List.map_append, ← h1]
              rfl
            have hnotinseen : (c.id.getD "") ∉ acc.seenKeyIds := by
              intro hmem
              apply hdup
              simp [validateKey_truthy_id c hval, hmem]
            have h2x : (acc.seenKeyIds ++ [c.id.getD ""]).Nodup := by
              rw [List.nodup_append]
              refine ⟨h2, List.nodup_singleton _, ?_⟩
              intro b hb hbs
              simp only [List.mem_singleton] at hbs
              exact hnotinseen (hbs ▸ hb)
            have h3x : ∀ j ∈ acc.validKeys ++ [c], validateKey j = true := by
              intro j hj
              rcases List.mem_append.mp hj with hj | hj
              · exact h3 j hj
              · rw [List.mem_singleton.mp hj]
                exact hval
            have hrec := ih { acc with
              validKeys := acc.validKeys ++ [c],
              seenKeyIds := acc.seenKeyIds ++ [c.id.getD ""] } h1x h2x h3x k hk hknotin2
            rw [List.find?_cons_of_neg ks' ?_]
            · exact hrec
            · intro hpc
              have hpc2 : validateKey c = true ∧ (c.id.getD "") = (k.id.getD "") := by
                simpa using hpc
              obtain ⟨S, hS, _⟩ := healKeys_extends ks' { acc with
                validKeys := acc.validKeys ++ [c],
                seenKeyIds := acc.seenKeyIds ++ [c.id.getD ""] }
              have hinv := healKeys_inv ks' { acc with
                validKeys := acc.validKeys ++ [c],
                seenKeyIds := acc.seenKeyIds ++ [c.id.getD ""] } h1x h2x h3x
              have hndmap : ((ks'.foldl healKeysStep { acc with
                  validKeys := acc.validKeys ++ [c],
                  seenKeyIds := acc.seenKeyIds ++ [c.id.getD ""] }).validKeys.map
                    (fun j => j.id.getD "")).Nodup := by
                have h := hinv.2.1
                rw [hinv.1] at h
                exact h
              have hcmem : c ∈ (ks'.foldl healKeysStep { acc with
                  validKeys := acc.validKeys ++ [c],
                  seenKeyIds := acc.seenKeyIds ++ [c.id.getD ""] }).validKeys := by
                rw [hS]
                exact List.mem_append_left _
                  (List.mem_append_right _ (List.mem_singleton.mpr rfl))
              have hck : c = k := List.inj_on_of_nodup_map hndmap hcmem hk hpc2.2
              exact hkc hck.symm
        · have hstep : healKeysStep acc c =
              { acc with repairs := acc.repairs ++ ["Removed corrupted key"] } := by
            unfold healKeysStep
            rw [if_neg hdup, if_neg hval]
          rw [hstep] at hk
          have hrec := ih { acc with repairs := acc.repairs ++ ["Removed corrupted key"] }
            h1 h2 h3 k hk hknotin
          rw [List.find?_cons_of_neg ks' ?_]
          · exact hrec
          · intro hpc
            have hpc2 : validateKey c = true ∧ (c.id.getD "") = (k.id.getD "") := by
              simpa using hpc
            exact hval hpc2.1

theorem healLogs_inv (keyIds : List String) :
    ∀ (logs : List SLog) (acc : List SLog × List String),
      (∀ l ∈ acc.1, validateLog l = true ∧ (l.keyId.getD "") ∈ keyIds) →
      ∀ l ∈ (logs.foldl (healLogsStep keyIds) acc).1,
        validateLog l = true ∧ (l.keyId.getD "") ∈ keyIds := by
  intro logs
  induction logs with
  | nil =>
      intro acc h
      exact h
  | cons lg logs' ih =>
      intro acc h
      rw [List.foldl_cons]
      refine ih _ ?_
      unfold healLogsStep
      by_cases hv : validateLog lg = true
      · by_cases hm : (lg.keyId.getD "") ∈ keyIds
        · rw [if_neg (by simp [hv]), if_neg (by simp [hm])]
          intro l hl
          rcases List.mem_append.mp hl with hl | hl
          · exact h l hl
          · rw [List.mem_singleton.mp hl]
            exact ⟨hv, hm⟩
        · rw [if_neg (by simp [hv]), if_pos (by simp [hm])]
          exact h
      · rw [if_pos (by simp [hv])]
        exact h

theorem healLogs_all_valid (keyIds : List String) :
    ∀ (logs : List SLog) (acc : List SLog × List String),
      (∀ l ∈ logs, validateLog l = true ∧ (l.keyId.getD "") ∈ keyIds) →
      logs.foldl (healLogsStep keyIds) acc = (acc.1 ++ logs, acc.2) := by
  intro logs
  induction logs with
  | nil =>
      intro acc _
      simp
  | cons lg logs' ih =>
      intro acc h
      have hlg := h lg (List.mem_cons_self lg logs')
      rw [List.foldl_cons]
      have hstep : healLogsStep keyIds acc lg = (acc.1 ++ [lg], acc.2) := by
        unfold healLogsStep
        rw [if_neg (by simp [hlg.1]), if_neg (by simp [hlg.2])]
      rw [hstep, ih _ (fun l hl => h l (List.mem_cons_of_mem lg hl))]
      simp

theorem jsSetDedupAux_props {α : Type} [DecidableEq α] :
    ∀ (l : List α) (seen : List α),
      (jsSetDedupAux seen l).Nodup
      ∧ ∀ a ∈ jsSetDedupAux seen l, a ∉ seen ∧ a ∈ l := by
  intro l
  induction l with
  | nil =>
      intro seen
      refine ⟨List.nodup_nil, ?_⟩
      intro a ha
      cases ha
  | cons a rest ih =>
      intro seen
      simp only [jsSetDedupAux]
      by_cases h : a ∈ seen
      · rw [if_pos h]
        obtain ⟨h1, h2⟩ := ih seen
        exact ⟨h1, fun b hb => ⟨(h2 b hb).1, List.mem_cons_of_mem a (h2 b hb).2⟩⟩
      · rw [if_neg h]
        obtain ⟨h1, h2⟩ := ih (seen ++ [a])
        refine ⟨?_, ?_⟩
        · rw [List.nodup_cons]
          refine ⟨?_, h1⟩
          intro hmem
          exact (h2 a hmem).1 (List.mem_append_right _ (List.mem_singleton.mpr rfl))
        · intro b hb
          rcases List.mem_cons.mp hb with hb | hb
          · rw [hb]
            exact ⟨h, List.mem_cons_self a rest⟩
          · have hp := h2 b hb
            exact ⟨fun hm => hp.1 (List.mem_append_left _ hm), List.mem_cons_of_mem a hp.2⟩

theorem jsSetDedupAux_of_nodup {α : Type} [DecidableEq α] :
    ∀ (l : List α) (seen : List α), l.Nodup → (∀ a ∈ l, a ∉ seen) →
      jsSetDedupAux seen l = l := by
  intro l
  induction l with
  | nil =>
      intro seen _ _
      rfl
  | cons a rest ih =>
      intro seen hnd hns
      simp only [jsSetDedupAux]
      rw [if_neg (hns a (List.mem_cons_self a rest))]
      rw [ih (seen ++ [a]) (List.nodup_cons.mp hnd).2]
      intro b hb hmem
      rcases List.mem_append.mp hmem with hm | hm
      · exact hns b (List.mem_cons_of_mem a hb) hm
      · simp only [List.mem_singleton] at hm
        exact (List.nodup_cons.mp hnd).1 (hm ▸ hb)

/-- C8 counterexample: a vault whose default-key reference is the empty
string — a dangling reference, since no surviving key can have an empty id —
is left untouched by `selfHealVault` even though a key remains: the healed
reference neither resolves to an existing key, nor is replaced by the first
remaining key, nor cleared. -/
theorem c8_self_heal_counterexample :
    (selfHealVault cexVault).1.defaultKeyId = some ""
  ∧ (selfHealVault cexVault).1.keys ≠ []
  ∧ some "" ≠ (none : Option String)
  ∧ ∀ k ∈ (selfHealVault cexVault).1.keys, k.id ≠ some "" := by
  refine ⟨by decide, by decide, by decide, by decide⟩

/-- C8 (amended): for every input vault, `selfHealVault` returns (it never
throws) a vault in which the surviving key ids are unique and every
surviving key is well-formed, with the first occurrence winning: the
surviving keys are a subsequence of the input keys, every surviving key is
the *first* valid input key bearing its id, and the id of every valid input
key survives; every remaining log entry is valid and references a surviving
key; a *truthy* (non-empty) default-key reference resolves to a surviving
key — a truthy dangling input reference is replaced by the first surviving
key or cleared when none remain, while a falsy (absent or empty-string)
reference is left as-is — and the tombstone list is duplicate-free and
holds only non-empty strings; and `selfHealVault` is idempotent: applied to
its own output it changes nothing and reports zero repairs. -/
theorem c8_self_heal_convergence (d : VaultData) :
    (((selfHealVault d).1.keys.map (fun k => k.id.getD "")).Nodup
      ∧ ∀ k ∈ (selfHealVault d).1.keys, validateKey k = true)
  ∧ (List.Sublist (selfHealVault d).1.keys d.keys
      ∧ (∀ k ∈ (selfHealVault d).1.keys,
          d.keys.find? (fun j => validateKey j && ((j.id.getD "") == (k.id.getD "")))
            = some k)
      ∧ ∀ j ∈ d.keys, validateKey j = true →
          (j.id.getD "") ∈ (selfHealVault d).1.keys.map (fun k => k.id.getD ""))
  ∧ (∀ l ∈ (selfHealVault d).1.logs, validateLog l = true
      ∧ (l.keyId.getD "") ∈ (selfHealVault d).1.keys.map (fun k => k.id.getD ""))
  ∧ (truthyS (selfHealVault d).1.defaultKeyId = true →
      ((selfHealVault d).1.defaultKeyId.getD "") ∈
        (selfHealVault d).1.keys.map (fun k => k.id.getD ""))
  ∧ (truthyS d.defaultKeyId = true →
      (d.defaultKeyId.getD "") ∉ (selfHealVault d).1.keys.map (fun k => k.id.getD "") →
      ((selfHealVault d).1.keys = [] ∧ (selfHealVault d).1.defaultKeyId = none)
      ∨ (∃ k rest, (selfHealVault d).1.keys = k :: rest
          ∧ (selfHealVault d).1.defaultKeyId = k.id))
  ∧ ((selfHealVault d).1.deletedSecretIds.Nodup
      ∧ ∀ o ∈ (selfHealVault d).1.deletedSecretIds, ∃ s, o = some s ∧ 0 < s.length)
  ∧ selfHealVault (selfHealVault d).1 = ((selfHealVault d).1, []) := by
  have hKinv := healKeys_inv d.keys ⟨[], [], []⟩ rfl List.nodup_nil (by
    intro k hk
    cases hk)
  have hkeys : (selfHealVault d).1.keys = (healKeysAcc d).validKeys := rfl
  have hids : ((selfHealVault d).1.keys.map (fun k => k.id.getD "")) = healedKeyIds d := rfl
  have hKnodup : (((selfHealVault d).1.keys.map (fun k => k.id.getD ""))).Nodup := by
    have h := hKinv.2.1
    rw [hKinv.1] at h
    exact h
  have hKvalid : ∀ k ∈ (selfHealVault d).1.keys, validateKey k = true := hKinv.2.2
  have hSub : List.Sublist (selfHealVault d).1.keys d.keys := by
    obtain ⟨S, hS, hsub⟩ := healKeys_extends d.keys ⟨[], [], []⟩
    have h : (d.keys.foldl healKeysStep ⟨[], [], []⟩).validKeys = S := by
      rw [hS]
      rfl
    show List.Sublist (d.keys.foldl healKeysStep ⟨[], [], []⟩).validKeys d.keys
    rw [h]
    exact hsub
  have hFirst : ∀ k ∈ (selfHealVault d).1.keys,
      d.keys.find? (fun j => validateKey j && ((j.id.getD "") == (k.id.getD "")))
        = some k := by
    intro k hk
    exact healKeys_first d.keys ⟨[], [], []⟩ rfl List.nodup_nil (by
      intro j hj
      cases hj) k hk (by
      intro hc
      cases hc)
  have hComplete : ∀ j ∈ d.keys, validateKey j = true →
      (j.id.getD "") ∈ (selfHealVault d).1.keys.map (fun k => k.id.getD "") := by
    intro j hj hv
    have h := healKeys_complete d.keys ⟨[], [], []⟩ j hj hv
    rw [hKinv.1] at h
    exact h
  have hLogs : ∀ l ∈ (selfHealVault d).1.logs, validateLog l = true
      ∧ (l.keyId.getD "") ∈ healedKeyIds d := by
    have := healLogs_inv (healedKeyIds d) d.logs ([], []) (by
      intro l hl
      cases hl)
    exact this
  have hDK : truthyS (selfHealVault d).1.defaultKeyId = true →
      ((selfHealVault d).1.defaultKeyId.getD "") ∈ healedKeyIds d := by
    intro htr
    have hdk : (selfHealVault d).1.defaultKeyId = (healDefaultKey d).1 := rfl
    rw [hdk] at htr ⊢
    unfold healDefaultKey at htr ⊢
    by_cases hc : (truthyS d.defaultKeyId &&
        !decide ((d.defaultKeyId.getD "") ∈ healedKeyIds d)) = true
    · rw [if_pos hc] at htr ⊢
      cases hv : (healKeysAcc d).validKeys with
      | nil =>
          rw [hv] at htr
          simp [truthyS] at htr
      | cons k rest =>
          show ((k.id).getD "") ∈ (healKeysAcc d).validKeys.map (fun j => j.id.getD "")
          rw [hv]
          exact List.mem_map_of_mem (fun j => j.id.getD "") (List.mem_cons_self k rest)
    · rw [if_neg hc] at htr ⊢
      have : ¬ (!decide ((d.defaultKeyId.getD "") ∈ healedKeyIds d)) = true := by
        intro hn
        exact hc (by simp [htr, hn])
      simp only [Bool.not_eq_true', decide_eq_false_iff_not, Decidable.not_not] at this
      simpa using this
  have hDKrepair : truthyS d.defaultKeyId = true →
      (d.defaultKeyId.getD "") ∉ healedKeyIds d →
      ((selfHealVault d).1.keys = [] ∧ (selfHealVault d).1.defaultKeyId = none)
      ∨ (∃ k rest, (selfHealVault d).1.keys = k :: rest
          ∧ (selfHealVault d).1.defaultKeyId = k.id) := by
    intro htr hnm
    have hdk : (selfHealVault d).1.defaultKeyId = (healDefaultKey d).1 := rfl
    have hc : (truthyS d.defaultKeyId &&
        !decide ((d.defaultKeyId.getD "") ∈ healedKeyIds d)) = true := by
      simp [htr, hnm]
    rw [hkeys, hdk]
    unfold healDefaultKey
    rw [if_pos hc]
    cases hv : (healKeysAcc d).validKeys with
    | nil =>
        left
        exact ⟨rfl, rfl⟩
    | cons k rest =>
        right
        exact ⟨k, rest, rfl, rfl⟩
  have hTombNodup : (selfHealVault d).1.deletedSecretIds.Nodup := by
    show ((jsSetDedup d.deletedSecretIds).filter tombstoneKeep).Nodup
    exact ((jsSetDedupAux_props d.deletedSecretIds []).1).filter tombstoneKeep
  have hTombOk : ∀ o ∈ (selfHealVault d).1.deletedSecretIds,
      ∃ s, o = some s ∧ 0 < s.length := by
    intro o ho
    have := (List.mem_filter.mp ho).2
    cases o with
    | none => cases this
    | some s =>
        refine ⟨s, rfl, ?_⟩
        simpa [tombstoneKeep] using this
  refine ⟨⟨hKnodup, hKvalid⟩, ⟨hSub, hFirst, hComplete⟩, hLogs, hDK, hDKrepair,
    ⟨hTombNodup, hTombOk⟩, ?_⟩
  -- idempotence
  have H := (selfHealVault d).1
  have hK2 : healKeysAcc (selfHealVault d).1 =
      { validKeys := (selfHealVault d).1.keys,
        seenKeyIds := (selfHealVault d).1.keys.map (fun k => k.id.getD ""),
        repairs := [] } := by
    show (selfHealVault d).1.keys.foldl healKeysStep ⟨[], [], []⟩ = _
    rw [healKeys_all_valid (selfHealVault d).1.keys ⟨[], [], []⟩ hKvalid hKnodup (by
      intro k _ hm
      cases hm)]
    simp
  have hids2 : healedKeyIds (selfHealVault d).1 = healedKeyIds d := by
    unfold healedKeyIds
    rw [hK2]
    rfl
  have hL2 : healLogsAcc (selfHealVault d).1 = ((selfHealVault d).1.logs, []) := by
    unfold healLogsAcc
    rw [hids2]
    rw [healLogs_all_valid (healedKeyIds d) (selfHealVault d).1.logs ([], []) hLogs]
    simp
  have hD2 : healDefaultKey (selfHealVault d).1 = ((selfHealVault d).1.defaultKeyId, []) := by
    unfold healDefaultKey
    rw [if_neg ?_]
    intro hc
    rw [Bool.and_eq_true] at hc
    have htr := hc.1
    have hmem := hDK htr
    rw [← hids2] at hmem
    have := hc.2
    simp only [Bool.not_eq_true', decide_eq_false_iff_not] at this
    exact this hmem
  have hT2 : healTombstones (selfHealVault d).1 = (selfHealVault d).1.deletedSecretIds := by
    unfold healTombstones jsSetDedup
    rw [jsSetDedupAux_of_nodup _ [] hTombNodup (by
      intro a _ hm
      cases hm)]
    rw [List.filter_eq_self.mpr]
    intro o ho
    obtain ⟨s, rfl, hs⟩ := hTombOk o ho
    simpa [tombstoneKeep] using hs
  show (({ keys := (healKeysAcc (selfHealVault d).1).validKeys,
           logs := (healLogsAcc (selfHealVault d).1).1,
           defaultKeyId := (healDefaultKey (selfHealVault d).1).1,
           deletedSecretIds := healTombstones (selfHealVault d).1 } : VaultData),
        (healKeysAcc (selfHealVault d).1).repairs ++ (healLogsAcc (selfHealVault d).1).2 ++
          (healDefaultKey (selfHealVault d).1).2 ++
          (if (selfHealVault d).1.deletedSecretIds.length =
              (healTombstones (selfHealVault d).1).length then []
           else ["Cleaned deletedSecretIds (removed duplicates/invalid entries)"])) =
      ((selfHealVault d).1, [])
  rw [hK2, hL2, hD2, hT2]
  simp

/-- C8 amended-theorem witness: the amended statement at a vault holding a
duplicate key, an orphaned log, a truthy dangling default reference and a
duplicated tombstone; the duplicate key resolves first-occurrence-wins. -/
theorem c8_self_heal_convergence_witness :
    (((selfHealVault
        { keys := [cexKey, cexKey],
          logs := [{ id := some "l1", keyId := some "gone", timestamp := some 3 }],
          defaultKeyId := some "gone",
          deletedSecretIds := [some "t1", some "t1", some "", none] }).1.keys.map
            (fun k => k.id.getD "")).Nodup
      ∧ ∀ k ∈ (selfHealVault
          { keys := [cexKey, cexKey],
            logs := [{ id := some "l1", keyId := some "gone", timestamp := some 3 }],
            defaultKeyId := some "gone",
            deletedSecretIds := [some "t1", some "t1", some "", none] }).1.keys,
          validateKey k = true)
  ∧ truthyS (some "gone") = true
  ∧ List.find? (fun j => validateKey j && ((j.id.getD "") == (cexKey.id.getD "")))
      [cexKey, cexKey] = some cexKey :=
  ⟨(c8_self_heal_convergence
      { keys := [cexKey, cexKey],
        logs := [{ id := some "l1", keyId := some "gone", timestamp := some 3 }],
        defaultKeyId := some "gone",
        deletedSecretIds := [some "t1", some "t1", some "", none] }).1,
   by decide,
   (c8_self_heal_convergence
      { keys := [cexKey, cexKey],
        logs := [{ id := some "l1", keyId := some "gone", timestamp := some 3 }],
        defaultKeyId := some "gone",
        deletedSecretIds := [some "t1", some "t1", some "", none] }).2.1.2.1
     cexKey (by decide)⟩

end Nostr
